import Mathlib

/-!
Verification development for the RLM-MCP server core
(session/context lifecycle, decomposition, BM25 ranking, caches,
regex safety, memory estimation).

The TypeScript sources are embedded shallowly:

* JS strings are modelled as `List Char` (one entry per code unit);
* JS `number` values that the code treats as integers are modelled as
  `Int` (with JS-specific clamping made explicit, e.g. `jsSlice`);
* BM25 scores are modelled as exact rationals, with `Math.log`
  abstracted as an explicit function parameter `lg : ℚ → ℚ` — theorems
  that depend on the logarithm only assume sign facts (`0 < lg x` for
  `1 < x`) that hold for the real natural logarithm;
* the JS `RegExp` engine is external machinery: the five fixed
  ReDoS-detector patterns and the fixed sentence/section patterns are
  embedded concretely (a small derivative-based matcher), while the
  engine behind `by_regex` splitting is an abstract parameter
  constrained only by the ordered-occurrence property of
  `String.prototype.split`;
* the tokenizer provider (`by_tokens`) is an abstract `encode`/`decode`
  pair, as in the specification's external-interface section.
-/

namespace RLM

/-- Resource limits from `constants.ts` (`RESOURCE_LIMITS`). -/
def MAX_CONTEXT_SIZE : Nat := 100 * 1024 * 1024

/-- `RESOURCE_LIMITS.MAX_SESSION_MEMORY` (500 MB). -/
def MAX_SESSION_MEMORY : Nat := 500 * 1024 * 1024

/-- `RESOURCE_LIMITS.MAX_CHUNKS`. -/
def MAX_CHUNKS : Nat := 10000

/-- `RESOURCE_LIMITS.MAX_CONTEXTS_PER_SESSION`. -/
def MAX_CONTEXTS_PER_SESSION : Nat := 50

/-- `RESOURCE_LIMITS.MAX_VARIABLES_PER_SESSION`. -/
def MAX_VARIABLES_PER_SESSION : Nat := 1000

/-- Chunking defaults from `constants.ts`. -/
def DEFAULT_CHUNK_SIZE : Int := 10000

/-- `DEFAULT_OVERLAP`. -/
def DEFAULT_OVERLAP : Int := 200

/-- `DEFAULT_LINES_PER_CHUNK`. -/
def DEFAULT_LINES_PER_CHUNK : Int := 100

/-- `DEFAULT_TOKENS_PER_CHUNK`. -/
def DEFAULT_TOKENS_PER_CHUNK : Int := 2000

/-- `DEFAULT_TOKEN_OVERLAP`. -/
def DEFAULT_TOKEN_OVERLAP : Int := 200

/-- BM25 parameter `INDEX_CONFIG.K1`. -/
def K1 : ℚ := 3 / 2

/-- BM25 parameter `INDEX_CONFIG.B`. -/
def B : ℚ := 3 / 4

/-- `REGEX_LIMITS.MAX_PATTERN_LENGTH` from `utils/security.ts`. -/
def MAX_PATTERN_LENGTH : Nat := 500

/-- Error codes from `errors/index.ts` (`enum ErrorCode`), with their
stable numeric values. -/
inductive ErrorCode where
  | CONTEXT_NOT_FOUND
  | CONTEXT_TOO_LARGE
  | INVALID_CONTEXT_ID
  | CONTEXT_ALREADY_EXISTS
  | SESSION_NOT_FOUND
  | SESSION_MEMORY_EXCEEDED
  | INVALID_REGEX
  | REGEX_TIMEOUT
  | VARIABLE_LIMIT_EXCEEDED
  | CHUNK_LIMIT_EXCEEDED
  | INVALID_INPUT
  deriving DecidableEq, Repr

/-- The numeric value of each error code, as declared in the enum. -/
def ErrorCode.value : ErrorCode → Nat
  | .CONTEXT_NOT_FOUND => 1001
  | .CONTEXT_TOO_LARGE => 1002
  | .INVALID_CONTEXT_ID => 1003
  | .CONTEXT_ALREADY_EXISTS => 1004
  | .SESSION_NOT_FOUND => 2001
  | .SESSION_MEMORY_EXCEEDED => 2004
  | .INVALID_REGEX => 4001
  | .REGEX_TIMEOUT => 4002
  | .VARIABLE_LIMIT_EXCEEDED => 5002
  | .CHUNK_LIMIT_EXCEEDED => 5003
  | .INVALID_INPUT => 6001

/-- A typed error value (`RLMError` carries a code and a message; the
message text is irrelevant to every claim and elided). -/
structure Err where
  code : ErrorCode
  deriving DecidableEq, Repr

/-- `DecompositionStrategy` from `types.ts`. -/
inductive Strategy where
  | FIXED_SIZE
  | BY_LINES
  | BY_PARAGRAPHS
  | BY_SECTIONS
  | BY_REGEX
  | BY_SENTENCES
  | BY_TOKENS
  deriving DecidableEq, Repr

/-- The string value of each strategy tag (used inside cache keys). -/
def Strategy.tag : Strategy → List Char
  | .FIXED_SIZE => "fixed_size".toList
  | .BY_LINES => "by_lines".toList
  | .BY_PARAGRAPHS => "by_paragraphs".toList
  | .BY_SECTIONS => "by_sections".toList
  | .BY_REGEX => "by_regex".toList
  | .BY_SENTENCES => "by_sentences".toList
  | .BY_TOKENS => "by_tokens".toList

/-- Strategy-specific chunk metadata.  The source stores a
`Record<string, unknown>`; the fields that each strategy actually
writes are modelled per constructor. -/
inductive ChunkMeta where
  | none
  | lines (startLine endLine lineCount : Nat)
  | paragraph (originalLength : Nat)
  | single
  | preamble
  | section_ (level : Nat) (title : List Char)
  | sentence
  | tokens (tokenStart tokenEnd tokenCount : Nat)
  deriving DecidableEq, Repr

/-- `Chunk` from `types.ts`.  Offsets are `Int`: JS numbers, which the
code does not clamp to `[0, length]` (see the `fixed_size`
counterexample for claim C2). -/
structure Chunk where
  index : Nat
  content : List Char
  startOffset : Int
  endOffset : Int
  metadata : ChunkMeta := ChunkMeta.none
  deriving DecidableEq, Repr

/-- `DecomposeOptions` (the option-bag interface shared by
`chunk-cache.ts`, `chunk-index.ts` and the processor; the processor's
unused `separator` field is elided).  Numeric options are modelled as
integers. -/
structure Options where
  chunkSize : Option Int := Option.none
  overlap : Option Int := Option.none
  linesPerChunk : Option Int := Option.none
  tokensPerChunk : Option Int := Option.none
  tokenOverlap : Option Int := Option.none
  pattern : Option (List Char) := Option.none
  model : Option (List Char) := Option.none
  encoding : Option (List Char) := Option.none
  deriving DecidableEq, Repr

/-- JS `x || default` on an optional numeric option: `undefined`, `0`
(and `NaN`, not modelled) are falsy and select the default. -/
def jsOr (x : Option Int) (d : Int) : Int :=
  match x with
  | Option.none => d
  | Option.some v => if v = 0 then d else v

/-- JS `String.prototype.slice` index normalisation: negative indices
count from the end, then both ends are clamped to `[0, len]`. -/
def jsSliceIdx (len : Nat) (i : Int) : Nat :=
  if i < 0 then (max (i + len) 0).toNat else min i.toNat len

/-- JS `String.prototype.slice(start, end)` on a `List Char`. -/
def jsSlice (l : List Char) (s e : Int) : List Char :=
  let a := jsSliceIdx l.length s
  let b := jsSliceIdx l.length e
  (l.take b).drop a

/-- JS `String.prototype.trim`: strip leading and trailing whitespace. -/
def jsTrim (l : List Char) : List Char :=
  ((l.dropWhile Char.isWhitespace).reverse.dropWhile Char.isWhitespace).reverse

/-- Ceiling division for the loop-iteration count of strided loops:
the number of values `i` with `i * step < len` (for `1 ≤ step`). -/
def strideCount (len step : Nat) : Nat := (len + step - 1) / step

/-- One iteration of the `decomposeBySize` loop: chunk `i` covers
`[i*step, min(i*step + chunkSize, len))` of the content. -/
def sizeChunkAt (content : List Char) (chunkSize step : Int) (i : Nat) : Chunk :=
  let offset : Int := i * step
  let e : Int := min (offset + chunkSize) (content.length : Int)
  { index := i, content := jsSlice content offset e,
    startOffset := offset, endOffset := e }

/-- `ContextProcessor.decomposeBySize`.  The while-loop starts at
`offset = 0` and advances by `step = chunkSize - overlap` per pushed
chunk, stopping when `offset ≥ len` or after the safety-cap break
(`index > MAX_CHUNKS`, checked after the push, so at most
`MAX_CHUNKS + 1` chunks are produced); it is rendered as a map over
the iteration indices.  A non-positive step fails `INVALID_INPUT`. -/
def decomposeBySize (content : List Char) (chunkSize overlap : Int) :
    Except Err (List Chunk) :=
  let step := chunkSize - overlap
  if step ≤ 0 then Except.error ⟨ErrorCode.INVALID_INPUT⟩
  else
    let iters := min (strideCount content.length step.toNat) (MAX_CHUNKS + 1)
    Except.ok ((List.range iters).map (sizeChunkAt content chunkSize step))

/-- Sentinel for a JS `undefined` read from a numeric array (reachable
in `decomposeByLines` only when the caller passes a non-positive
`linesPerChunk`, making `lineIndex + linesPerChunk` negative). -/
def JS_UNDEFINED_NUM : Int := -(2 ^ 53)

/-- JS array read `xs[i]` with an `Int` index (out-of-range reads give
`undefined`, modelled by the sentinel). -/
def jsArrayGet (xs : List Nat) (i : Int) : Int :=
  if 0 ≤ i ∧ i.toNat < xs.length then (xs.getD i.toNat 0 : Nat) else JS_UNDEFINED_NUM

/-- JS `Array.prototype.slice(start, end)` (same clamping as string
slice). -/
def jsSliceArr (l : List (List Char)) (s e : Int) : List (List Char) :=
  let a := jsSliceIdx l.length s
  let b := jsSliceIdx l.length e
  (l.take b).drop a

/-- The accumulator of JS `content.split('\n')` (every part kept,
including empty ones; the result is never empty). -/
def splitNLGo (cur : List Char) : List Char → List (List Char)
  | [] => [cur.reverse]
  | c :: t =>
    if c = '\n' then cur.reverse :: splitNLGo [] t else splitNLGo (c :: cur) t

/-- JS `content.split('\n')`. -/
def splitNL (l : List Char) : List (List Char) := splitNLGo [] l

/-- The line-start offset table of `decomposeByLines`: `offsets[0] = 0`
and `offsets[i+1] = offsets[i] + lines[i].length + 1` for every line
but the last (the loop runs over `i < lines.length - 1`), so the table
has one entry per line. -/
def lineOffsetsGo (acc : Nat) : List (List Char) → List Nat
  | [] => []
  | [_] => [acc]
  | l :: ls => acc :: lineOffsetsGo (acc + l.length + 1) ls

/-- Line offsets for the split lines of a content string. -/
def lineOffsets (lines : List (List Char)) : List Nat :=
  lineOffsetsGo 0 lines

/-- One iteration of the `decomposeByLines` loop (`lineIndex =
i * advanceLines`). -/
def linesChunkAt (content : List Char) (lines : List (List Char))
    (offs : List Nat) (linesPerChunk : Int) (advance : Nat) (i : Nat) : Chunk :=
  let lineIndex := i * advance
  let endLineIndex : Int := min ((lineIndex : Int) + linesPerChunk) (lines.length : Int)
  let chunkLines := jsSliceArr lines lineIndex endLineIndex
  let chunkContent := (chunkLines.intersperse ['\n']).flatten
  let startOffset : Nat := offs.getD lineIndex 0
  let endOffset : Int :=
    if (lines.length : Int) ≤ (lineIndex : Int) + linesPerChunk then (content.length : Int)
    else jsArrayGet offs endLineIndex
  { index := i, content := chunkContent, startOffset := startOffset,
    endOffset := endOffset,
    metadata := ChunkMeta.lines lineIndex (endLineIndex - 1).toNat chunkLines.length }

/-- `ContextProcessor.decomposeByLines`.  The while-loop advances
`lineIndex` by `advanceLines = max(1, linesPerChunk - overlapLines)`
per chunk and stops when `lineIndex ≥ lines.length`, with the same
post-push safety-cap break as `decomposeBySize`; it is rendered as a
map over the iteration indices. -/
def decomposeByLines (content : List Char) (linesPerChunk overlapLines : Int) :
    List Chunk :=
  let lines := splitNL content
  let offs := lineOffsets lines
  let advance : Nat := (max 1 (linesPerChunk - overlapLines)).toNat
  let iters := min (strideCount lines.length advance) (MAX_CHUNKS + 1)
  (List.range iters).map (linesChunkAt content lines offs linesPerChunk advance)

/-- First occurrence of `pat` in a suffix list (offset relative to the
suffix), scanning left to right; the backbone of JS
`String.prototype.indexOf`. -/
def indexOfSuffix (pat : List Char) : List Char → Option Nat
  | [] => if pat.isEmpty then Option.some 0 else Option.none
  | c :: t =>
    if (c :: t).take pat.length = pat then Option.some 0
    else (indexOfSuffix pat t).map Nat.succ

/-- JS `content.indexOf(pat, start)` (`none` for `-1`). -/
def indexOfFrom (content pat : List Char) (start : Nat) : Option Nat :=
  (indexOfSuffix pat (content.drop start)).map (· + start)

/-- The shared emit loop of `decomposeByParagraphs` and
`decomposeByRegex`: for each split part, skip it if it trims to
nothing, otherwise locate it with `indexOf` from the current offset
(falling back to the offset itself on `-1`), emit the trimmed part
with original offsets, and advance.  `withPara` selects the
paragraph metadata written by `decomposeByParagraphs`. -/
def scanPartsGo (content : List Char) (withPara : Bool) :
    List (List Char) → Nat → Nat → List Chunk
  | [], _, _ => []
  | part :: rest, offset, index =>
    let trimmed := jsTrim part
    if trimmed.isEmpty then scanPartsGo content withPara rest offset index
    else
      let startOffset : Nat :=
        match indexOfFrom content part offset with
        | Option.some a => a
        | Option.none => offset
      let c : Chunk :=
        { index := index, content := trimmed, startOffset := (startOffset : Int),
          endOffset := ((startOffset + part.length : Nat) : Int),
          metadata := if withPara then ChunkMeta.paragraph part.length else ChunkMeta.none }
      if MAX_CHUNKS < index + 1 then [c]
      else c :: scanPartsGo content withPara rest (startOffset + part.length) (index + 1)

/-- Position of the first `"\n\n"` in a list (start of the first
match of the separator regex `\n\n+`). -/
def findBlankSep : List Char → Option Nat
  | [] => Option.none
  | [_] => Option.none
  | a :: b :: t =>
    if a = '\n' ∧ b = '\n' then Option.some 0
    else (findBlankSep (b :: t)).map Nat.succ

theorem dropWhile_length_le (p : Char → Bool) :
    ∀ l : List Char, (l.dropWhile p).length ≤ l.length := by
  intro l
  induction l with
  | nil => simp
  | cons c t ih =>
    rw [List.dropWhile_cons]
    split
    · exact Nat.le_trans ih (Nat.le_succ _)
    · simp

theorem findBlankSep_spec :
    ∀ {l : List Char} {i : Nat}, findBlankSep l = Option.some i →
      ∃ t, l.drop i = '\n' :: '\n' :: t
  | [], i, h => by simp [findBlankSep] at h
  | [c], i, h => by simp [findBlankSep] at h
  | a :: b :: t, i, h => by
    by_cases hab : a = '\n' ∧ b = '\n'
    · rw [findBlankSep, if_pos hab] at h
      cases h
      exact ⟨t, by simp [hab.1, hab.2]⟩
    · rw [findBlankSep, if_neg hab, Option.map_eq_some'] at h
      obtain ⟨j, hj, rfl⟩ := h
      obtain ⟨t2, ht2⟩ := findBlankSep_spec hj
      exact ⟨t2, by simpa using ht2⟩

theorem findBlankSep_drop_lt {l : List Char} {i : Nat}
    (h : findBlankSep l = Option.some i) :
    ((l.drop i).dropWhile (fun c => c = '\n')).length < l.length := by
  obtain ⟨t, ht⟩ := findBlankSep_spec h
  have hlen : (l.drop i).length ≤ l.length := by
    simpa using List.length_drop i l ▸ Nat.sub_le l.length i
  rw [ht] at hlen ⊢
  have hred : ((('\n' :: '\n' :: t).dropWhile (fun c => c = '\n'))).length =
      (t.dropWhile (fun c => c = '\n')).length := by
    simp [List.dropWhile_cons]
  rw [hred]
  have hdw := dropWhile_length_le (fun c => decide (c = '\n')) t
  simp only [List.length_cons] at hlen
  omega

/-- `content.split(/\n\n+/)`: split at each leftmost occurrence of two
newlines, consuming the maximal newline run as the separator. -/
def splitBlank (l : List Char) : List (List Char) :=
  match h : findBlankSep l with
  | Option.none => [l]
  | Option.some i =>
    l.take i :: splitBlank ((l.drop i).dropWhile (fun c => c = '\n'))
termination_by l.length
decreasing_by exact findBlankSep_drop_lt h

/-- `ContextProcessor.decomposeByParagraphs`. -/
def decomposeByParagraphs (content : List Char) : List Chunk :=
  scanPartsGo content true (splitBlank content) 0 0

/-- Whitespace class for the embedded `\s` (Lean's ASCII whitespace;
the JS class additionally contains rare Unicode spaces). -/
def isWsCh (c : Char) : Bool := c.isWhitespace

/-- Title start chosen by the backtracking engine for
`^(#{1,6})\s+(.+)$` after `r` hashes and a maximal whitespace run of
length `w`: the largest position `j ∈ [r+1, r+w]` whose character
exists and is not a newline (`\s+` gives back trailing whitespace
until `.+` can start). -/
def pickTitleStart (l : List Char) (r w : Nat) : Option Nat :=
  ((List.range w).reverse.map (fun k => r + 1 + k)).find?
    (fun j => !((l.drop j).headD '\n' == '\n'))

/-- Match of the section-header pattern `^(#{1,6})\s+(.+)$` (multiline)
at the head of `l`: returns `(matchLength, level, title)`.  The hash
run must have length 1–6 (a longer run cannot match, since the char
after any shorter prefix is again `#`), must be followed by at least
one whitespace char, and the title is the maximal non-newline run from
the chosen title start. -/
def headerMatchAt (l : List Char) : Option (Nat × Nat × List Char) :=
  let r := (l.takeWhile (fun c => c == '#')).length
  if 1 ≤ r ∧ r ≤ 6 then
    let w := ((l.drop r).takeWhile isWsCh).length
    if 1 ≤ w then
      match pickTitleStart l r w with
      | Option.some j =>
        let title := (l.drop j).takeWhile (fun c => !(c == '\n'))
        Option.some (j + title.length, r, title)
      | Option.none => Option.none
    else Option.none
  else Option.none

/-- Scan for the next header match at a line start (the `^` anchor with
the `m` flag): `pos` is the absolute position of the head of `l`,
`atStart` whether that position starts a line.  Returns
`(start, matchEnd, level, title)` in absolute positions. -/
def findHeaderGo : List Char → Nat → Bool → Option (Nat × Nat × Nat × List Char)
  | [], _, _ => Option.none
  | c :: t, pos, atStart =>
    if atStart then
      match headerMatchAt (c :: t) with
      | Option.some (mlen, lvl, title) => Option.some (pos, pos + mlen, lvl, title)
      | Option.none => findHeaderGo t (pos + 1) (c == '\n')
    else findHeaderGo t (pos + 1) (c == '\n')

theorem pickTitleStart_ge {l : List Char} {r w j : Nat}
    (h : pickTitleStart l r w = Option.some j) : r + 1 ≤ j := by
  unfold pickTitleStart at h
  have hmem := List.mem_of_find?_eq_some h
  simp only [List.mem_map, List.mem_reverse, List.mem_range] at hmem
  obtain ⟨k, _, rfl⟩ := hmem
  omega

theorem pickTitleStart_lt {l : List Char} {r w j : Nat}
    (h : pickTitleStart l r w = Option.some j) : j < l.length := by
  have hcond := List.find?_some h
  simp only [Bool.not_eq_true', beq_eq_false_iff_ne, ne_eq] at hcond
  by_contra hge
  push_neg at hge
  rw [List.drop_eq_nil_of_le hge] at hcond
  simp [List.headD] at hcond

theorem headerMatchAt_bounds {l : List Char} {mlen lvl : Nat} {title : List Char}
    (h : headerMatchAt l = Option.some (mlen, lvl, title)) :
    1 ≤ mlen ∧ mlen ≤ l.length := by
  simp only [headerMatchAt] at h
  split at h
  · split at h
    · split at h
      · rename_i j hj
        simp only [Option.some.injEq, Prod.mk.injEq] at h
        have h1 := pickTitleStart_ge hj
        have h2 := pickTitleStart_lt hj
        have h3 : ((l.drop j).takeWhile (fun c => !(c == '\n'))).length ≤ l.length - j := by
          calc ((l.drop j).takeWhile (fun c => !(c == '\n'))).length
              ≤ (l.drop j).length := ((l.drop j).takeWhile_sublist _).length_le
            _ = l.length - j := List.length_drop _ _
        omega
      · exact absurd h (by simp)
    · exact absurd h (by simp)
  · exact absurd h (by simp)

theorem findHeaderGo_lt :
    ∀ {l : List Char} {pos : Nat} {b : Bool} {st en lvl : Nat} {title : List Char},
      findHeaderGo l pos b = Option.some (st, en, lvl, title) →
      pos < en ∧ en ≤ pos + l.length
  | [], pos, b, st, en, lvl, title, h => by simp [findHeaderGo] at h
  | c :: t, pos, b, st, en, lvl, title, h => by
    rw [findHeaderGo] at h
    by_cases hb : b
    · simp only [hb, if_true] at h
      cases hm : headerMatchAt (c :: t) with
      | some v =>
        obtain ⟨mlen, lvl2, title2⟩ := v
        rw [hm] at h
        simp only [Option.some.injEq, Prod.mk.injEq] at h
        have h1 := headerMatchAt_bounds hm
        omega
      | none =>
        rw [hm] at h
        have := findHeaderGo_lt h
        simp only [List.length_cons]
        omega
    · simp only [hb, if_false] at h
      have := findHeaderGo_lt h
      simp only [List.length_cons]
      omega

/-- All header matches of `^(#{1,6})\s+(.+)$` with the `g` flag: after
a match the scan resumes at the match end (the `lastIndex`), which sits
on a newline or at end of input, so the resumed scan is never at a
line start until it passes that newline. -/
def sectionMatchesGo (l : List Char) (pos : Nat) (atStart : Bool) :
    List (Nat × Nat × List Char) :=
  match h : findHeaderGo l pos atStart with
  | Option.none => []
  | Option.some (st, en, lvl, title) =>
    (st, lvl, title) :: sectionMatchesGo (l.drop (en - pos)) en false
termination_by l.length
decreasing_by
  have := findHeaderGo_lt h
  have hnil : l ≠ [] := by
    intro hl
    rw [hl] at h
    simp [findHeaderGo] at h
  have : 0 < l.length := List.length_pos_of_ne_nil hnil
  simp only [List.length_drop]
  omega

/-- The header matches of a content string. -/
def sectionMatches (content : List Char) : List (Nat × Nat × List Char) :=
  sectionMatchesGo content 0 true

/-- The per-header emit loop of `decomposeBySections`: each section
spans from its header start to the next header's start (or the end of
input), with the slice trimmed for the chunk content. -/
def sectionChunksGo (content : List Char) :
    List (Nat × Nat × List Char) → Nat → List Chunk
  | [], _ => []
  | (st, lvl, title) :: rest, index =>
    let endOff : Nat :=
      match rest with
      | [] => content.length
      | (st2, _, _) :: _ => st2
    let c : Chunk :=
      { index := index, content := jsTrim ((content.take endOff).drop st),
        startOffset := (st : Int), endOffset := (endOff : Int),
        metadata := ChunkMeta.section_ lvl title }
    if MAX_CHUNKS < index + 1 then [c]
    else c :: sectionChunksGo content rest (index + 1)

/-- `ContextProcessor.decomposeBySections`: no headers gives a single
whole-text chunk; otherwise an optional trimmed preamble chunk is
followed by one chunk per header. -/
def decomposeBySections (content : List Char) : List Chunk :=
  match sectionMatches content with
  | [] => [{ index := 0, content := content, startOffset := 0,
             endOffset := (content.length : Int), metadata := ChunkMeta.single }]
  | (st0, lvl0, title0) :: restM =>
    let allM := (st0, lvl0, title0) :: restM
    let preContent := jsTrim (content.take st0)
    if 0 < st0 ∧ ¬ preContent.isEmpty then
      { index := 0, content := preContent, startOffset := 0,
        endOffset := (st0 : Int), metadata := ChunkMeta.preamble } ::
        sectionChunksGo content allM 1
    else sectionChunksGo content allM 0

/-- Sentence-terminator class `[.!?]`. -/
def isTermCh (c : Char) : Bool := c == '.' || c == '!' || c == '?'

/-- Leftmost match of `[^.!?]+[.!?]+\s*` in `l`: returns the match
start (relative to `l`) and the match length.  A position can only
start a match if its character is a non-terminator followed
(after the maximal non-terminator run) by at least one terminator;
the match then greedily takes the terminator run and any following
whitespace. -/
def sentenceNextMatch : List Char → Option (Nat × Nat)
  | [] => Option.none
  | c :: t =>
    if isTermCh c then (sentenceNextMatch t).map (fun p => (p.1 + 1, p.2))
    else
      let a := (c :: t).takeWhile (fun x => !(isTermCh x))
      let r1 := (c :: t).drop a.length
      if r1.isEmpty then Option.none
      else
        let b := r1.takeWhile isTermCh
        let r2 := r1.drop b.length
        let w := r2.takeWhile (fun x => x.isWhitespace)
        Option.some (0, a.length + b.length + w.length)

theorem sentenceNextMatch_bounds :
    ∀ {l : List Char} {s len : Nat}, sentenceNextMatch l = Option.some (s, len) →
      1 ≤ len ∧ s + len ≤ l.length
  | [], s, len, h => by simp [sentenceNextMatch] at h
  | c :: t, s, len, h => by
    rw [sentenceNextMatch] at h
    cases hc : isTermCh c with
    | true =>
      simp only [hc, if_true, Option.map_eq_some'] at h
      obtain ⟨⟨s2, len2⟩, h2, heq⟩ := h
      simp only at heq
      cases heq
      have := sentenceNextMatch_bounds h2
      simp only [List.length_cons]
      omega
    | false =>
      simp only [hc, Bool.false_eq_true, if_false] at h
      set a := (c :: t).takeWhile (fun x => !(isTermCh x)) with ha
      set r1 := (c :: t).drop a.length with hr1
      cases hre : r1.isEmpty with
      | true =>
        rw [if_pos hre] at h
        exact absurd h (by simp)
      | false =>
        rw [if_neg (by simp [hre])] at h
        simp only [Option.some.injEq, Prod.mk.injEq] at h
        obtain ⟨h1, h2⟩ := h
        subst h1
        subst h2
        set b := r1.takeWhile isTermCh with hb
        set r2 := r1.drop b.length with hr2
        have hbl : b.length ≤ r1.length := (r1.takeWhile_sublist _).length_le
        have hwl : (r2.takeWhile (fun x => x.isWhitespace)).length ≤ r2.length :=
          (r2.takeWhile_sublist _).length_le
        have hr2l : r2.length = r1.length - b.length := by
          rw [hr2]; exact List.length_drop _ _
        have hr1l : r1.length = (c :: t).length - a.length := by
          rw [hr1]; exact List.length_drop _ _
        have hal : a.length ≤ (c :: t).length := (List.takeWhile_sublist _).length_le
        have ha1 : 1 ≤ a.length := by
          rw [ha, List.takeWhile_cons]
          simp [hc]
        constructor
        · omega
        · simp only [Nat.zero_add]
          omega

/-- The exec loop of `decomposeBySentences`: successive leftmost
matches of the sentence pattern, emitting each trimmed match with its
original offsets, with the shared post-push safety-cap break. -/
def sentencesGo (l : List Char) (pos : Nat) (index : Nat) : List Chunk :=
  match h : sentenceNextMatch l with
  | Option.none => []
  | Option.some (s, len) =>
    let mchars := (l.drop s).take len
    let trimmed := jsTrim mchars
    let rest := l.drop (s + len)
    if trimmed.isEmpty then
      if MAX_CHUNKS < index then [] else sentencesGo rest (pos + s + len) index
    else
      let c : Chunk :=
        { index := index, content := trimmed, startOffset := ((pos + s : Nat) : Int),
          endOffset := ((pos + s + len : Nat) : Int), metadata := ChunkMeta.sentence }
      if MAX_CHUNKS < index + 1 then [c]
      else c :: sentencesGo rest (pos + s + len) (index + 1)
termination_by l.length
decreasing_by
  all_goals {
    have hb := sentenceNextMatch_bounds h
    have hnil : l ≠ [] := by
      intro hl
      rw [hl] at h
      simp [sentenceNextMatch] at h
    have hpos : 0 < l.length := List.length_pos_of_ne_nil hnil
    simp only [List.length_drop]
    omega }

/-- `ContextProcessor.decomposeBySentences`, with the fallback single
whole-text chunk when no sentence matched and the trimmed content is
non-empty. -/
def decomposeBySentences (content : List Char) : List Chunk :=
  let sentences := sentencesGo content 0 0
  if sentences.isEmpty ∧ ¬ (jsTrim content).isEmpty then
    [{ index := 0, content := jsTrim content, startOffset := 0,
       endOffset := (content.length : Int), metadata := ChunkMeta.single }]
  else sentences

/-- The cumulative token-offset table of `decomposeByTokens`:
`tokenOffsets[0] = 0`, `tokenOffsets[i+1] = tokenOffsets[i] +
decode([tokens[i]]).length` (one entry per token plus the final
total). -/
def tokenOffsetsList (single : Nat → Nat) : List Nat → Nat → List Nat
  | [], acc => [acc]
  | t :: ts, acc => acc :: tokenOffsetsList single ts (acc + single t)

/-- `ContextProcessor.decomposeByTokens`, over an abstract tokenizer
provider (`encode`/`decode`, the external interface of the spec).
`tokenOffsets` is the table of cumulative lengths of the decoded
one-token prefixes; the stored `model`/`encoding` echo fields of the
metadata are elided.  The stride loop is rendered as a map over the
iteration indices as for `decomposeBySize`. -/
def decomposeByTokens (encode : List Char → List Nat) (decode : List Nat → List Char)
    (content : List Char) (tokensPerChunk overlapTokens : Int) :
    Except Err (List Chunk) :=
  if tokensPerChunk ≤ 0 then Except.error ⟨ErrorCode.INVALID_INPUT⟩
  else if overlapTokens < 0 then Except.error ⟨ErrorCode.INVALID_INPUT⟩
  else
    let step := tokensPerChunk - overlapTokens
    if step ≤ 0 then Except.error ⟨ErrorCode.INVALID_INPUT⟩
    else
      let tokens := encode content
      let tokenOffsets := tokenOffsetsList (fun t => (decode [t]).length) tokens 0
      let iters := min (strideCount tokens.length step.toNat) (MAX_CHUNKS + 1)
      Except.ok ((List.range iters).map (fun i =>
        let start := i * step.toNat
        let e := min (start + tokensPerChunk.toNat) tokens.length
        { index := i, content := decode ((tokens.take e).drop start),
          startOffset := ((tokenOffsets.getD start 0 : Nat) : Int),
          endOffset := ((tokenOffsets.getD e 0 : Nat) : Int),
          metadata := ChunkMeta.tokens start e (e - start) }))

/-- Regular expressions over characters, for embedding the fixed
regex literals of the source (the ReDoS-detector patterns). -/
inductive RE where
  | emp
  | eps
  | cls (p : Char → Bool)
  | cat (a b : RE)
  | alt (a b : RE)
  | star (a : RE)

/-- Whether a regex accepts the empty string. -/
def RE.nullable : RE → Bool
  | .emp => false
  | .eps => true
  | .cls _ => false
  | .cat a b => a.nullable && b.nullable
  | .alt a b => a.nullable || b.nullable
  | .star _ => true

/-- Brzozowski derivative. -/
def RE.deriv : RE → Char → RE
  | .emp, _ => .emp
  | .eps, _ => .emp
  | .cls p, c => if p c then .eps else .emp
  | .cat a b, c =>
    if a.nullable then .alt (.cat (a.deriv c) b) (b.deriv c)
    else .cat (a.deriv c) b
  | .alt a b, c => .alt (a.deriv c) (b.deriv c)
  | .star a, c => .cat (a.deriv c) (.star a)

/-- Whole-string match via derivatives. -/
def RE.matchesB (r : RE) (s : List Char) : Bool :=
  (s.foldl RE.deriv r).nullable

/-- The class matching any character. -/
def anyCh : RE := RE.cls (fun _ => true)

/-- JS `RegExp.prototype.test`: the regex matches some substring. -/
def testRE (r : RE) (s : List Char) : Bool :=
  RE.matchesB (RE.cat (RE.star anyCh) (RE.cat r (RE.star anyCh))) s

/-- A single literal character. -/
def chRE (c : Char) : RE := RE.cls (fun x => x == c)

/-- A literal character sequence. -/
def strRE (s : List Char) : RE := s.foldr (fun c r => RE.cat (chRE c) r) RE.eps

/-- The class `[\+\*]`. -/
def plusStarCls : RE := RE.cls (fun c => c == '+' || c == '*')

/-- The class `[^)]`. -/
def notParenCls : RE := RE.cls (fun c => !(c == ')'))

/-- The class `[^|)]`. -/
def notBarParenCls : RE := RE.cls (fun c => !(c == '|' || c == ')'))

/-- `DANGEROUS_PATTERNS` from `utils/security.ts`:
`/(\+\+|\*\*|\?\?)/`, `/\([^)]*[\+\*][^)]*\)[\+\*]/`,
`/\([^|)]*\|[^|)]*\|[^|)]*\|[^|)]*\|/`, `/\([^)]*\.\*[^)]*\)\+/`,
`/\([^)]*\.\+[^)]*\)\+/` (capture groups do not affect matching). -/
def DANGEROUS_PATTERNS : List RE :=
  [ RE.alt (strRE "++".toList) (RE.alt (strRE "**".toList) (strRE "??".toList)),
    RE.cat (chRE '(') (RE.cat (RE.star notParenCls) (RE.cat plusStarCls
      (RE.cat (RE.star notParenCls) (RE.cat (chRE ')') plusStarCls)))),
    RE.cat (chRE '(') (RE.cat (RE.star notBarParenCls) (RE.cat (chRE '|')
      (RE.cat (RE.star notBarParenCls) (RE.cat (chRE '|')
      (RE.cat (RE.star notBarParenCls) (RE.cat (chRE '|')
      (RE.cat (RE.star notBarParenCls) (chRE '|')))))))),
    RE.cat (chRE '(') (RE.cat (RE.star notParenCls) (RE.cat (strRE ".*".toList)
      (RE.cat (RE.star notParenCls) (RE.cat (chRE ')') (chRE '+'))))),
    RE.cat (chRE '(') (RE.cat (RE.star notParenCls) (RE.cat (strRE ".+".toList)
      (RE.cat (RE.star notParenCls) (RE.cat (chRE ')') (chRE '+'))))) ]

/-- Whether a pattern string matches one of the declared ReDoS-prone
shapes. -/
def isDangerous (p : List Char) : Bool :=
  DANGEROUS_PATTERNS.any (fun r => testRE r p)

/-- Outcome of `validateRegexPattern`, mirroring its control flow in
order (the non-rejecting warning counters are elided: they do not
affect validity).  Compilation of the user pattern is attempted only
on the `ok`/`syntaxError` paths. -/
inductive RegexValidation where
  | tooLong
  | emptyPat
  | dangerous
  | syntaxError
  | ok
  deriving DecidableEq, Repr

/-- The `valid` field of the validation result. -/
def RegexValidation.valid : RegexValidation → Bool
  | .ok => true
  | _ => false

/-- Whether the validation path reached the `new RegExp(pattern)`
compilation attempt. -/
def RegexValidation.compileAttempted : RegexValidation → Bool
  | .ok => true
  | .syntaxError => true
  | _ => false

/-- `validateRegexPattern` from `utils/security.ts`: length cap, empty
check, ReDoS-shape rejection, then (only if all pass) a compile check.
`compileOk` abstracts whether `new RegExp(pattern)` succeeds. -/
def validateRegexPattern (compileOk : List Char → Bool) (p : List Char) :
    RegexValidation :=
  if MAX_PATTERN_LENGTH < p.length then RegexValidation.tooLong
  else if (jsTrim p).length = 0 then RegexValidation.emptyPat
  else if isDangerous p then RegexValidation.dangerous
  else if compileOk p then RegexValidation.ok
  else RegexValidation.syntaxError

/-- `safeRegexSearch` from `utils/security.ts`: validation happens
before any execution; an invalid pattern raises `INVALID_REGEX` and
the execution engine (abstracted by `engine`, which summarises the
budgeted exec loop with its timeout, match cap and zero-length
advance) is never consulted. -/
def safeRegexSearch (compileOk : List Char → Bool)
    (engine : List Char → List Char → List (Nat × List Char))
    (pattern text : List Char) : Except Err (List (Nat × List Char)) :=
  if (validateRegexPattern compileOk pattern).valid then
    Except.ok (engine pattern text)
  else Except.error ⟨ErrorCode.INVALID_REGEX⟩

/-- `ContextProcessor.decomposeByRegex`: validate the pattern (raising
`INVALID_REGEX` when rejected), split the content with the abstract
engine, then run the shared emit loop. -/
def decomposeByRegex (compileOk : List Char → Bool)
    (splitEngine : List Char → List Char → List (List Char))
    (content : List Char) (pattern : List Char) : Except Err (List Chunk) :=
  if (validateRegexPattern compileOk pattern).valid then
    Except.ok (scanPartsGo content false (splitEngine pattern content) 0 0)
  else Except.error ⟨ErrorCode.INVALID_REGEX⟩

/-- JS `x || default` on an optional string option (the empty string is
falsy). -/
def jsOrStr (x : Option (List Char)) (d : List Char) : List Char :=
  match x with
  | Option.none => d
  | Option.some s => if s.isEmpty then d else s

/-- The chunk-count guard of `ContextProcessor.decompose`. -/
def chunkLimit (chunks : List Chunk) : Except Err (List Chunk) :=
  if MAX_CHUNKS < chunks.length then Except.error ⟨ErrorCode.CHUNK_LIMIT_EXCEEDED⟩
  else Except.ok chunks

/-- The cache-free decomposition pipeline of
`ContextProcessor.decompose`: strategy dispatch with the documented
option defaults, followed by the chunk-count guard. -/
def decomposePure (compileOk : List Char → Bool)
    (splitEngine : List Char → List Char → List (List Char))
    (encode : List Char → List Nat) (decode : List Nat → List Char)
    (content : List Char) (strategy : Strategy) (opts : Options) :
    Except Err (List Chunk) :=
  let raw : Except Err (List Chunk) :=
    match strategy with
    | .FIXED_SIZE =>
      decomposeBySize content (jsOr opts.chunkSize DEFAULT_CHUNK_SIZE)
        (jsOr opts.overlap DEFAULT_OVERLAP)
    | .BY_LINES =>
      Except.ok (decomposeByLines content
        (jsOr opts.linesPerChunk DEFAULT_LINES_PER_CHUNK) (jsOr opts.overlap 10))
    | .BY_PARAGRAPHS => Except.ok (decomposeByParagraphs content)
    | .BY_SECTIONS => Except.ok (decomposeBySections content)
    | .BY_REGEX =>
      decomposeByRegex compileOk splitEngine content
        (jsOrStr opts.pattern "\n\n+".toList)
    | .BY_SENTENCES => Except.ok (decomposeBySentences content)
    | .BY_TOKENS =>
      decomposeByTokens encode decode content
        (jsOr opts.tokensPerChunk DEFAULT_TOKENS_PER_CHUNK)
        (jsOr opts.tokenOverlap DEFAULT_TOKEN_OVERLAP)
  match raw with
  | Except.error e => Except.error e
  | Except.ok chunks => chunkLimit chunks

/-- Word character for `tokenizeText`'s `[\p{L}\p{N}]+` (Lean's
ASCII-alphanumeric predicate; the Unicode categories additionally
contain non-ASCII letters and digits, irrelevant to every claim). -/
def isWordChar (c : Char) : Bool := c.isAlphanum

/-- The run accumulator of the maximal-run scan behind
`text.toLowerCase().match(/[\p{L}\p{N}]+/gu)`. -/
def wordRunsGo (acc : List Char) : List Char → List (List Char)
  | [] => if acc.isEmpty then [] else [acc.reverse]
  | c :: t =>
    if isWordChar c then wordRunsGo (c :: acc) t
    else if acc.isEmpty then wordRunsGo [] t
    else acc.reverse :: wordRunsGo [] t

/-- `tokenizeText` from `chunk-index.ts`: lowercase, then the maximal
alphanumeric runs. -/
def tokenizeText (text : List Char) : List (List Char) :=
  wordRunsGo [] (text.map Char.toLower)

/-- A posting `{docId, tf}`. -/
structure Posting where
  docId : Nat
  tf : Nat
  deriving DecidableEq, Repr

/-- `Map.set`-style insertion-ordered frequency bump (`termFreqs`). -/
def bumpFreq : List (List Char × Nat) → List Char → List (List Char × Nat)
  | [], t => [(t, 1)]
  | (k, n) :: rest, t =>
    if k = t then (k, n + 1) :: rest else (k, n) :: bumpFreq rest t

/-- Term frequencies of a token list, in first-occurrence order. -/
def termFreqs (terms : List (List Char)) : List (List Char × Nat) :=
  terms.foldl bumpFreq []

/-- Append a posting to a term's list (creating the entry at the end
on first occurrence), preserving `Map` insertion order. -/
def addPosting : List (List Char × List Posting) → List Char → Posting →
    List (List Char × List Posting)
  | [], t, p => [(t, [p])]
  | (k, ps) :: rest, t, p =>
    if k = t then (k, ps ++ [p]) :: rest else (k, ps) :: addPosting rest t p

/-- First-match association lookup (JS `Map.get`). -/
def lookupTerm (l : List (List Char × List Posting)) (t : List Char) :
    Option (List Posting) :=
  match l with
  | [] => Option.none
  | (k, ps) :: rest => if k = t then Option.some ps else lookupTerm rest t

/-- Replace-or-append association update (JS array index assignment /
`Map.set` for a possibly-existing key). -/
def setNat : List (Nat × Nat) → Nat → Nat → List (Nat × Nat)
  | [], k, v => [(k, v)]
  | (k0, v0) :: rest, k, v =>
    if k0 = k then (k0, v) :: rest else (k0, v0) :: setNat rest k v

/-- Lookup with default (a missing `docLengths[docId]` read would be
`undefined` in JS; it is unreachable for indices built from
sequentially-indexed chunks). -/
def lookupNatD (l : List (Nat × Nat)) (k d : Nat) : Nat :=
  match l with
  | [] => d
  | (k0, v0) :: rest => if k0 = k then v0 else lookupNatD rest k d

/-- A lightweight content hash (`ChunkCache.hashContent`): the length
together with `simpleHash` of prefix, midpoint sample and suffix.
The string formatting `"len:hash"` is modelled as the pair. -/
structure ContentHash where
  len : Nat
  sample : Nat
  deriving DecidableEq, Repr

/-- Wrap to a signed 32-bit integer (the effect of JS bitwise ops). -/
def toInt32 (n : Int) : Int := (n + 2 ^ 31) % 2 ^ 32 - 2 ^ 31

/-- One step of `simpleHash`:
`hash = ((hash << 5) - hash) + charCode; hash = hash & hash`. -/
def simpleHashStep (h : Int) (c : Char) : Int :=
  toInt32 (toInt32 (h * 32) - h + c.toNat)

/-- `ChunkCache.simpleHash` (with the final `Math.abs`). -/
def simpleHash (s : List Char) : Nat :=
  (s.foldl simpleHashStep 0).natAbs

/-- `ChunkCache.hashContent`. -/
def hashContent (content : List Char) : ContentHash :=
  let pref := jsSlice content 0 100
  let suff := jsSlice content (-100) content.length
  let mid := content.length / 2
  let sample := jsSlice content mid (mid + 100)
  ⟨content.length, simpleHash (pref ++ sample ++ suff)⟩

/-- Minimal per-chunk metadata stored in an index entry. -/
structure IndexChunkMeta where
  index : Nat
  startOffset : Int
  endOffset : Int
  length : Nat
  deriving DecidableEq, Repr

/-- `IndexEntry` from `chunk-index.ts` (timestamps and hit counters
elided; `avgDocLength` is an exact rational). -/
structure IndexEntry where
  contentHash : ContentHash
  chunkCount : Nat
  avgDocLength : ℚ
  docLengths : List (Nat × Nat)
  postings : List (List Char × List Posting)
  chunkMetadata : List (Nat × IndexChunkMeta)
  deriving Repr

/-- Replace-or-append update for the chunk-metadata table. -/
def setMeta : List (Nat × IndexChunkMeta) → Nat → IndexChunkMeta →
    List (Nat × IndexChunkMeta)
  | [], k, v => [(k, v)]
  | (k0, v0) :: rest, k, v =>
    if k0 = k then (k0, v) :: rest else (k0, v0) :: setMeta rest k v

/-- The running state of `ChunkIndex.buildIndex`'s chunk loop. -/
structure BuildState where
  postings : List (List Char × List Posting)
  docLengths : List (Nat × Nat)
  chunkMetadata : List (Nat × IndexChunkMeta)
  totalLength : Nat

/-- One iteration of the `buildIndex` chunk loop. -/
def buildStep (st : BuildState) (chunk : Chunk) : BuildState :=
  let terms := tokenizeText chunk.content
  let tfs := termFreqs terms
  let docId := chunk.index
  { postings := tfs.foldl (fun ps tv => addPosting ps tv.1 ⟨docId, tv.2⟩) st.postings,
    docLengths := setNat st.docLengths docId terms.length,
    chunkMetadata := setMeta st.chunkMetadata docId
      ⟨chunk.index, chunk.startOffset, chunk.endOffset, chunk.content.length⟩,
    totalLength := st.totalLength + terms.length }

/-- `ChunkIndex.buildIndex`. -/
def buildIndex (contentHash : ContentHash) (chunks : List Chunk) : IndexEntry :=
  let st := chunks.foldl buildStep ⟨[], [], [], 0⟩
  let chunkCount := chunks.length
  { contentHash := contentHash,
    chunkCount := chunkCount,
    avgDocLength := if 0 < chunkCount then (st.totalLength : ℚ) / chunkCount else 0,
    docLengths := st.docLengths,
    postings := st.postings,
    chunkMetadata := st.chunkMetadata }

/-- A ranked chunk `{index, score}`. -/
structure RankedChunk where
  index : Nat
  score : ℚ
  deriving DecidableEq, Repr

/-- The BM25 contribution added to `scores[posting.docId]` for one
query term with frequency `qf` and document frequency `df`. -/
def bm25Term (lg : ℚ → ℚ) (entry : IndexEntry) (qf : Nat) (df : Nat)
    (p : Posting) : ℚ :=
  let idf := lg (1 + ((entry.chunkCount : ℚ) - df + 1 / 2) / ((df : ℚ) + 1 / 2))
  let docLen : ℚ := lookupNatD entry.docLengths p.docId 0
  let tf : ℚ := p.tf
  let denom := tf + K1 * (1 - B + B * (docLen / entry.avgDocLength))
  idf * ((tf * (K1 + 1)) / denom) * qf

/-- The score accumulation loops of `ChunkIndex.rank` (the `scores`
array modelled as a function of the doc id). -/
def rankScores (lg : ℚ → ℚ) (entry : IndexEntry)
    (qfs : List (List Char × Nat)) : Nat → ℚ :=
  qfs.foldl (fun sc tq =>
    match lookupTerm entry.postings tq.1 with
    | Option.none => sc
    | Option.some ps =>
      if ps.isEmpty then sc
      else
        ps.foldl (fun sc2 p =>
          fun i => if i = p.docId then sc2 i + bm25Term lg entry tq.2 ps.length p
                   else sc2 i) sc) (fun _ => 0)

/-- Sorting relation of the result sort: descending by score
(`(a, b) => b.score - a.score`, a stable sort in modern engines;
modelled with the stable `insertionSort`). -/
def scoreGE (a b : RankedChunk) : Prop := b.score ≤ a.score

instance : DecidableRel scoreGE := fun a b => inferInstanceAs (Decidable (b.score ≤ a.score))

/-- `ChunkIndex.rank`: tokenize the query, accumulate BM25 scores,
filter out non-positive scores and scores below `minScore`, sort by
score descending and take the top `topK`. -/
def rank (lg : ℚ → ℚ) (entry : IndexEntry) (query : List Char)
    (topK : Nat) (minScore : Option ℚ) : List RankedChunk :=
  let queryTerms := tokenizeText query
  if queryTerms.isEmpty ∨ entry.chunkCount = 0 then []
  else
    let qfs := termFreqs queryTerms
    let scores := rankScores lg entry qfs
    let results := (List.range entry.chunkCount).filterMap (fun i =>
      let s := scores i
      if s ≤ 0 then Option.none
      else
        match minScore with
        | Option.some m => if s < m then Option.none else Option.some ⟨i, s⟩
        | Option.none => Option.some ⟨i, s⟩)
    (List.insertionSort scoreGE results).take topK

/-- The total BM25 contribution of one query term `(t, qf)` to the
score of doc `i` (the closed form of the imperative accumulation in
`rank`, used to reason about it). -/
def termScore (lg : ℚ → ℚ) (entry : IndexEntry) (i : Nat)
    (tq : List Char × Nat) : ℚ :=
  match lookupTerm entry.postings tq.1 with
  | Option.none => 0
  | Option.some ps =>
    if ps.isEmpty then 0
    else ((ps.filter (fun p => p.docId == i)).map
      (bm25Term lg entry tq.2 ps.length)).sum

/-- Structural well-formedness of an index entry built from
sequentially indexed chunks: non-negative average length, and every
posting list non-empty, no longer than the chunk count (`df ≤ N`),
with positive term frequencies and in-range doc ids. -/
def EntryOK (entry : IndexEntry) : Prop :=
  0 ≤ entry.avgDocLength ∧
  ∀ t ps, lookupTerm entry.postings t = Option.some ps →
    ps ≠ [] ∧ ps.length ≤ entry.chunkCount ∧
      ∀ p ∈ ps, 1 ≤ p.tf ∧ p.docId < entry.chunkCount

/-- Invariant of the posting table during `buildIndex`'s chunk fold:
after `n` chunks whose indices lie below `bound`, every posting list
is non-empty, has length at most `n`, and holds positive term
frequencies with doc ids below `bound`. -/
def PostInv (postings : List (List Char × List Posting)) (n bound : Nat) : Prop :=
  ∀ t ps, lookupTerm postings t = Option.some ps →
    ps ≠ [] ∧ ps.length ≤ n ∧ ∀ p ∈ ps, 1 ≤ p.tf ∧ p.docId < bound

/-- The ordered-occurrence property of the parts produced by JS
`String.prototype.split`: each part occurs in the content at a
position at least `off`, and the next part occurs after it. -/
inductive OccursFrom (content : List Char) : List (List Char) → Nat → Prop where
  | nil (off : Nat) : OccursFrom content [] off
  | cons (part : List Char) (rest : List (List Char)) (off p : Nat)
      (hp : off ≤ p) (hocc : (content.drop p).take part.length = part)
      (hrest : OccursFrom content rest (p + part.length)) :
      OccursFrom content (part :: rest) off

/-- JS values stored in session variables (the shapes
`estimateObjectMemory` distinguishes). -/
inductive JsValue where
  | str (s : List Char)
  | num (q : ℚ)
  | bool (b : Bool)
  | jsNull
  | arr (elems : List JsValue)
  | obj (fields : List (List Char × JsValue))
  deriving Repr

/-- `estimateStringMemory` from `utils/security.ts`:
`2 * length + 40`. -/
def estimateStringMemory (s : List Char) : Nat := s.length * 2 + 40

mutual

/-- `estimateObjectMemory` from `utils/security.ts`. -/
def estimateObjectMemory : JsValue → Nat
  | .jsNull => 0
  | .str s => estimateStringMemory s
  | .num _ => 8
  | .bool _ => 8
  | .arr es => 40 + estimateArrMemory es
  | .obj fs => 40 + estimateObjMemory fs

/-- The `reduce` over an array's items (initial accumulator 40). -/
def estimateArrMemory : List JsValue → Nat
  | [] => 0
  | v :: t => estimateObjectMemory v + estimateArrMemory t

/-- The loop over an object's entries: key string estimate plus value
estimate. -/
def estimateObjMemory : List (List Char × JsValue) → Nat
  | [] => 0
  | (k, v) :: t => estimateStringMemory k + estimateObjectMemory v + estimateObjMemory t

end

/-- Digits of an integer for the JSON option string. -/
def intChars (n : Int) : List Char := (toString n).toList

/-- JSON string quoting (escape sequences elided: option strings are
compared only for equality inside cache keys). -/
def quoteStr (s : List Char) : List Char := '"' :: s ++ ['"']

/-- A rendered numeric JSON field, or nothing for `undefined`
(`JSON.stringify` omits undefined values). -/
def optFieldNum (name : List Char) (v : Option Int) : List (List Char) :=
  match v with
  | Option.none => []
  | Option.some n => ['"' :: name ++ '"' :: ':' :: intChars n]

/-- A rendered string JSON field, or nothing for `undefined`. -/
def optFieldStr (name : List Char) (v : Option (List Char)) : List (List Char) :=
  match v with
  | Option.none => []
  | Option.some s => ['"' :: name ++ '"' :: ':' :: quoteStr s]

/-- `JSON.stringify(normalizeOptions(options), sortedKeys)`: the
normalized object assigns the eight option keys in declaration order
and `stringify` prints the defined ones in that (insertion) order;
the sorted replacer array only controls inclusion. -/
def encodeOptions (o : Options) : List Char :=
  let fields :=
    optFieldNum "chunkSize".toList o.chunkSize ++
    optFieldNum "overlap".toList o.overlap ++
    optFieldNum "linesPerChunk".toList o.linesPerChunk ++
    optFieldNum "tokensPerChunk".toList o.tokensPerChunk ++
    optFieldNum "tokenOverlap".toList o.tokenOverlap ++
    optFieldStr "pattern".toList o.pattern ++
    optFieldStr "model".toList o.model ++
    optFieldStr "encoding".toList o.encoding
  ('{' :: (fields.intersperse [',']).flatten) ++ ['}']

/-- `generateKey` shared by `chunk-cache.ts` and `chunk-index.ts`:
`sessionId:contextId:strategy:optionsJson`. -/
def cacheKey (contextId sessionId : List Char) (strategy : Strategy)
    (o : Options) : List Char :=
  sessionId ++ ':' :: contextId ++ ':' :: strategy.tag ++ ':' :: encodeOptions o

/-- The invalidation key start `sessionId:contextId:` used by
`invalidateContext` in both caches. -/
def contextKeyStart (sessionId contextId : List Char) : List Char :=
  sessionId ++ ':' :: contextId ++ ':' :: []

/-- Replace-or-append association update with string keys
(JS `Map.set`: an existing key keeps its position, a new key is
appended). -/
def setKeyed {α : Type} : List (List Char × α) → List Char → α → List (List Char × α)
  | [], k, v => [(k, v)]
  | (k0, v0) :: rest, k, v =>
    if k0 = k then (k0, v) :: rest else (k0, v0) :: setKeyed rest k v

/-- Key-prefix invalidation: delete every entry whose key starts with
the given string (the `for (key of cache.keys()) if (key.startsWith(pref)) delete`
loops of `invalidateContext`/`invalidateSession`). -/
def invalidateKeyed {α : Type} (cache : List (List Char × α)) (pref : List Char) :
    List (List Char × α) :=
  cache.filter (fun kv => !(pref.isPrefixOf kv.1))

/-- A chunk-cache entry (timestamps, hit count and the size estimate
used only by the elided wall-clock LRU eviction are omitted). -/
structure ChunkCacheEntry where
  contentHash : ContentHash
  chunks : List Chunk

/-- The chunk cache (`ChunkCache.cache`). -/
abbrev ChunkCacheMap : Type := List (List Char × ChunkCacheEntry)

/-- `ChunkCache.get`: a hit requires a present key *and* a matching
content hash (a stale entry behaves as a miss; its eager deletion is
internal bookkeeping and elided). -/
def chunkCacheGet (cache : ChunkCacheMap) (contextId sessionId : List Char)
    (strategy : Strategy) (opts : Options) (h : ContentHash) :
    Option (List Chunk) :=
  match cache.lookup (cacheKey contextId sessionId strategy opts) with
  | Option.none => Option.none
  | Option.some e => if e.contentHash = h then Option.some e.chunks else Option.none

/-- `ChunkCache.set` (LRU admission eviction, which is keyed on
wall-clock access times, is elided; it only removes entries). -/
def chunkCacheSet (cache : ChunkCacheMap) (contextId sessionId : List Char)
    (strategy : Strategy) (opts : Options) (h : ContentHash)
    (chunks : List Chunk) : ChunkCacheMap :=
  setKeyed cache (cacheKey contextId sessionId strategy opts) ⟨h, chunks⟩

/-- `ChunkCache.invalidateContext`. -/
def chunkCacheInvalidate (cache : ChunkCacheMap) (contextId sessionId : List Char) :
    ChunkCacheMap :=
  invalidateKeyed cache (contextKeyStart sessionId contextId)

/-- The BM25 index cache (`ChunkIndex.cache`). -/
abbrev IndexCacheMap : Type := List (List Char × IndexEntry)

/-- `ChunkIndex.getOrBuildIndex`: reuse a cached entry whose content
hash matches, otherwise (re)build and store under the same key. -/
def getOrBuildIndex (cache : IndexCacheMap) (contextId sessionId : List Char)
    (strategy : Strategy) (opts : Options) (content : List Char)
    (chunks : List Chunk) : IndexEntry × IndexCacheMap :=
  let h := hashContent content
  let key := cacheKey contextId sessionId strategy opts
  match cache.lookup key with
  | Option.some e =>
    if e.contentHash = h then (e, cache)
    else
      let entry := buildIndex h chunks
      (entry, setKeyed cache key entry)
  | Option.none =>
    let entry := buildIndex h chunks
    (entry, setKeyed cache key entry)

/-- `ChunkIndex.invalidateContext`. -/
def indexCacheInvalidate (cache : IndexCacheMap) (contextId sessionId : List Char) :
    IndexCacheMap :=
  invalidateKeyed cache (contextKeyStart sessionId contextId)

/-- Modelled from the spec: the query-cache service (`query-cache.ts`)
is imported by the session manager but its source is not part of the
repository snapshot.  Per the spec, a `QueryCacheEntry` is keyed per
`(session, context, query-kind, options, content-hash)` and
`invalidateContext` drops every entry with the matching
`(session, context)` component. -/
structure QueryKey where
  sessionId : List Char
  contextId : List Char
  rest : List Char
  deriving DecidableEq, Repr

/-- Modelled from the spec: the query-result cache, with opaque cached
payloads. -/
abbrev QueryCacheMap : Type := List (QueryKey × List Char)

/-- Modelled from the spec: `queryCache.invalidateContext` drops every
entry keyed on the given `(session, context)`. -/
def queryCacheInvalidate (cache : QueryCacheMap) (contextId sessionId : List Char) :
    QueryCacheMap :=
  cache.filter (fun kv => !(kv.1.sessionId == sessionId && kv.1.contextId == contextId))

/-- `StructureType` from `types.ts`. -/
inductive StructureType where
  | PLAIN_TEXT
  | JSON
  | CSV
  | CODE
  | MARKDOWN
  | XML
  | LOG
  | MIXED
  deriving DecidableEq, Repr

/-- `ContextMetadata` (the `structure` field is named `structureTag`
since `structure` is a Lean keyword; the optional `encoding` field is
unused by the session manager and elided). -/
structure ContextMetadata where
  length : Nat
  lineCount : Nat
  wordCount : Nat
  structureTag : StructureType
  deriving DecidableEq, Repr

/-- `ContextItem` (creation wall-clock time abstracted to a `Nat`,
always 0 for newly loaded contexts in this model; `appendContext`
preserves it via the record update as in the source). -/
structure ContextItem where
  id : List Char
  content : List Char
  metadata : ContextMetadata
  createdAt : Nat
  deriving DecidableEq, Repr

/-- A REPL session (execution history, decomposition records and
activity timestamps are elided: no claim mentions them). -/
structure Session where
  id : List Char
  contexts : List (List Char × ContextItem)
  vars : List (List Char × JsValue)

/-- The process-wide state the claims range over: the session table
and the three caches (`sessionManager`, `chunkCache`, `chunkIndex`,
`queryCache` singletons).  The external persistence interface
(`contextStorage`) is out of the modelled state per the spec's
external-interface section. -/
structure ManagerState where
  sessions : List (List Char × Session)
  chunkCache : ChunkCacheMap
  indexCache : IndexCacheMap
  queryCache : QueryCacheMap

/-- `validateContextId` from `utils/security.ts`. -/
def validateContextId (cid : List Char) : Bool :=
  !cid.isEmpty && !((jsTrim cid).length == 0) && decide (cid.length ≤ 100) &&
    cid.all (fun c => c.isAlphanum || c == '_' || c == '-')

/-- `SessionManager.calculateSessionMemory`. -/
def calculateSessionMemory (s : Session) : Nat :=
  (s.contexts.map (fun kv => estimateStringMemory kv.2.content)).sum +
    (s.vars.map (fun kv => estimateObjectMemory kv.2)).sum

/-- The initial `answer` variable `{content: '', ready: false}`. -/
def answerInit : JsValue :=
  JsValue.obj [("content".toList, JsValue.str []), ("ready".toList, JsValue.bool false)]

/-- A freshly created session. -/
def freshSession (sid : List Char) : Session :=
  ⟨sid, [], [("answer".toList, answerInit)]⟩

/-- `getSession(sessionId) || getDefaultSession()`: an unknown session
id falls back to the `default` session, creating it on first use. -/
def resolveSession (st : ManagerState) (sid : List Char) : ManagerState × Session :=
  match st.sessions.lookup sid with
  | Option.some s => (st, s)
  | Option.none =>
    match st.sessions.lookup "default".toList with
    | Option.some s => (st, s)
    | Option.none =>
      let s := freshSession "default".toList
      ({ st with sessions := st.sessions ++ [("default".toList, s)] }, s)

/-- The coordinated invalidation of the three caches for one
`(session, context)` pair (steps b–d of the spec's mutation ordering
rule M1). -/
def invalidateAllCaches (st : ManagerState) (sid cid : List Char) : ManagerState :=
  { st with
    chunkCache := chunkCacheInvalidate st.chunkCache cid sid,
    indexCache := indexCacheInvalidate st.indexCache cid sid,
    queryCache := queryCacheInvalidate st.queryCache cid sid }

/-- Publish a context item into a session (step e of M1). -/
def publishContext (st : ManagerState) (s : Session) (cid : List Char)
    (item : ContextItem) : ManagerState :=
  let s2 := { s with contexts := setKeyed s.contexts cid item }
  { st with sessions := setKeyed st.sessions s.id s2 }

/-- `SessionManager.loadContext` (the persistence calls to the external
storage interface are elided). -/
def loadContext (analyze : List Char → ContextMetadata) (st : ManagerState)
    (sid cid content : List Char) : ManagerState × Except Err ContextItem :=
  if ¬ validateContextId cid then (st, Except.error ⟨ErrorCode.INVALID_INPUT⟩)
  else if MAX_CONTEXT_SIZE < content.length then
    (st, Except.error ⟨ErrorCode.CONTEXT_TOO_LARGE⟩)
  else
    let p := resolveSession st sid
    let st1 := p.1
    let session := p.2
    if MAX_CONTEXTS_PER_SESSION ≤ session.contexts.length then
      (st1, Except.error ⟨ErrorCode.VARIABLE_LIMIT_EXCEEDED⟩)
    else
      let existing := session.contexts.lookup cid
      let existingSize : Int :=
        match existing with
        | Option.some c => estimateStringMemory c.content
        | Option.none => 0
      let projected : Int :=
        (calculateSessionMemory session : Int) - existingSize +
          (estimateStringMemory content : Int)
      if (MAX_SESSION_MEMORY : Int) < projected then
        (st1, Except.error ⟨ErrorCode.SESSION_MEMORY_EXCEEDED⟩)
      else
        let item : ContextItem := ⟨cid, content, analyze content, 0⟩
        let st2 :=
          match existing with
          | Option.some _ => invalidateAllCaches st1 session.id cid
          | Option.none => st1
        (publishContext st2 session cid item, Except.ok item)

/-- The `mode` option of `rlm_append_context`. -/
inductive AppendMode where
  | append
  | prepend
  deriving DecidableEq, Repr

/-- The combined content of `appendContext`:
`mode === 'prepend' ? content + existing : existing + content`. -/
def combineContent (existingContent content : List Char) (m : AppendMode) : List Char :=
  match m with
  | AppendMode.prepend => content ++ existingContent
  | AppendMode.append => existingContent ++ content

/-- `SessionManager.appendContext`: validation, size and memory
admission checks, then — only on success — the snapshot (external
storage, elided), the three cache invalidations, and finally the
publish of the combined context. -/
def appendContext (analyze : List Char → ContextMetadata) (st : ManagerState)
    (sid cid content : List Char) (mode : Option AppendMode)
    (createIfMissing : Option Bool) : ManagerState × Except Err ContextItem :=
  if ¬ validateContextId cid then (st, Except.error ⟨ErrorCode.INVALID_INPUT⟩)
  else
    let p := resolveSession st sid
    let st1 := p.1
    let session := p.2
    match session.contexts.lookup cid with
    | Option.none =>
      if createIfMissing = Option.some false then
        (st1, Except.error ⟨ErrorCode.CONTEXT_NOT_FOUND⟩)
      else loadContext analyze st1 session.id cid content
    | Option.some existing =>
      let combined := combineContent existing.content content (mode.getD AppendMode.append)
      if MAX_CONTEXT_SIZE < combined.length then
        (st1, Except.error ⟨ErrorCode.CONTEXT_TOO_LARGE⟩)
      else
        let projected : Int :=
          (calculateSessionMemory session : Int) -
            (estimateStringMemory existing.content : Int) +
            (estimateStringMemory combined : Int)
        if (MAX_SESSION_MEMORY : Int) < projected then
          (st1, Except.error ⟨ErrorCode.SESSION_MEMORY_EXCEEDED⟩)
        else
          let item : ContextItem :=
            { existing with content := combined, metadata := analyze combined }
          let st2 := invalidateAllCaches st1 session.id cid
          (publishContext st2 session cid item, Except.ok item)

/-- `ContextProcessor.decompose` with cache support: consult the chunk
cache under the current content hash; on a miss run the pure pipeline
and store the result. -/
def decomposeWithCache (compileOk : List Char → Bool)
    (splitEngine : List Char → List Char → List (List Char))
    (encode : List Char → List Nat) (decode : List Nat → List Char)
    (cache : ChunkCacheMap) (contextId sessionId : List Char)
    (strategy : Strategy) (opts : Options) (content : List Char) :
    Except Err (List Chunk) × ChunkCacheMap :=
  let h := hashContent content
  match chunkCacheGet cache contextId sessionId strategy opts h with
  | Option.some cached => (Except.ok cached, cache)
  | Option.none =>
    match decomposePure compileOk splitEngine encode decode content strategy opts with
    | Except.error e => (Except.error e, cache)
    | Except.ok chunks =>
      (Except.ok chunks, chunkCacheSet cache contextId sessionId strategy opts h chunks)

/-! ### Concrete instances used by witnesses and counterexamples -/

/-- A constant metadata value standing in for `analyzeContent` in
concrete scenarios (the structure-detection heuristics are a parameter
of the embedding; no claim depends on them). -/
def constMetadata : ContextMetadata := ⟨0, 0, 0, StructureType.PLAIN_TEXT⟩

/-- A session holding `MAX_CONTEXTS_PER_SESSION` contexts. -/
def c10Contexts : List (List Char × ContextItem) :=
  (List.range MAX_CONTEXTS_PER_SESSION).map (fun i =>
    ("c".toList ++ intChars i,
     ⟨"c".toList ++ intChars i, "x".toList, constMetadata, 0⟩))

/-- The session at the context cap. -/
def c10Session : Session := ⟨"s".toList, c10Contexts, []⟩

/-- Manager state holding the capped session. -/
def c10State : ManagerState := ⟨[("s".toList, c10Session)], [], [], []⟩

/-- A context already at the maximum context size. -/
def c7Existing : ContextItem :=
  ⟨"c".toList, List.replicate MAX_CONTEXT_SIZE 'a', constMetadata, 0⟩

/-- Its session. -/
def c7Session : Session := ⟨"s".toList, [("c".toList, c7Existing)], []⟩

/-- Manager state for the append-overflow scenario. -/
def c7State : ManagerState := ⟨[("s".toList, c7Session)], [], [], []⟩

/-- The context of the cache-invalidation scenario. -/
def c1Ctx : ContextItem := ⟨"c".toList, "hello".toList, constMetadata, 0⟩

/-- The options of the cached decomposition in the scenario. -/
def c1Opts : Options := { chunkSize := Option.some 2, overlap := Option.some 1 }

/-- Its session. -/
def c1Session : Session := ⟨"s".toList, [("c".toList, c1Ctx)], []⟩

/-- Manager state with a populated chunk cache, index cache and query
cache for `(session s, context c)`. -/
def c1State : ManagerState :=
  ⟨[("s".toList, c1Session)],
   [(cacheKey "c".toList "s".toList Strategy.FIXED_SIZE c1Opts,
     ⟨hashContent "hello".toList, [⟨0, "he".toList, 0, 2, ChunkMeta.none⟩]⟩)],
   [(cacheKey "c".toList "s".toList Strategy.FIXED_SIZE c1Opts,
     buildIndex (hashContent "hello".toList) [])],
   [(⟨"s".toList, "c".toList, "q".toList⟩, "r".toList)]⟩

/-- The appended state of the scenario. -/
def c1Result : ManagerState × Except Err ContextItem :=
  appendContext (fun _ => constMetadata) c1State "s".toList "c".toList
    " world".toList Option.none Option.none

/-- The context item `appendContext` publishes in the scenario. -/
def c1Item : ContextItem := ⟨"c".toList, "hello world".toList, constMetadata, 0⟩

/-- The three chunks of the BM25 scenario E3. -/
def c4Chunks : List Chunk :=
  [⟨0, "the cat sat".toList, 0, 11, ChunkMeta.none⟩,
   ⟨1, "dogs bark".toList, 0, 9, ChunkMeta.none⟩,
   ⟨2, "the cat and the cat".toList, 0, 19, ChunkMeta.none⟩]

/-- The index built over the E3 chunks. -/
def c4Entry : IndexEntry := buildIndex ⟨0, 0⟩ c4Chunks

/-- A computable stand-in for `Math.log` that agrees with the natural
logarithm in sign (`x - 1 > 0 ↔ ln x > 0` for `x > 0`); BM25 rank
comparisons for a single-term query depend on the logarithm only
through the sign of the (shared) idf factor, so orderings computed
with it coincide with the real ones. -/
def ratLogLin : ℚ → ℚ := fun x => x - 1

/-- Two chunks matching the query `cat`: lengths 1 and 5, term
frequencies 1 and 2.  With the initial average document length 3 the
first ranks higher; a long disjoint chunk raises the average and
reverses the order. -/
def c5aChunks : List Chunk :=
  [⟨0, "cat".toList, 0, 3, ChunkMeta.none⟩,
   ⟨1, "cat cat x y z".toList, 0, 13, ChunkMeta.none⟩]

/-- A chunk of 30 `dog` tokens, disjoint from the query `cat`. -/
def c5aNew : Chunk :=
  ⟨2, (List.replicate 30 "dog ".toList).flatten, 0, 120, ChunkMeta.none⟩

/-- The index over the two `cat` chunks alone. -/
def c5Entry1 : IndexEntry := buildIndex ⟨0, 0⟩ c5aChunks

/-- The index after appending the disjoint 30-token chunk. -/
def c5Entry2 : IndexEntry := buildIndex ⟨0, 0⟩ (c5aChunks ++ [c5aNew])

/-- A character-level tokenizer satisfying the tokenizer-provider
hypotheses (decode of a concatenation is the concatenation of decodes,
and decode inverts encode). -/
def charEncode (s : List Char) : List Nat := s.map Char.toNat

/-- Its decoder. -/
def charDecode (ts : List Nat) : List Char := ts.map Char.ofNat

/-- The chunk-offset invariant of the decomposition contract:
`0 ≤ startOffset ≤ endOffset ≤ len`. -/
def ChunkBounds (len : Nat) (c : Chunk) : Prop :=
  0 ≤ c.startOffset ∧ c.startOffset ≤ c.endOffset ∧ c.endOffset ≤ (len : Int)

instance (len : Nat) (c : Chunk) : Decidable (ChunkBounds len c) :=
  inferInstanceAs (Decidable (_ ∧ _ ∧ _))

/-- Well-placedness of the section-header matches: start positions lie
in `[lo, hi)` and strictly increase. -/
def StsOK : List (Nat × Nat × List Char) → Nat → Nat → Prop
  | [], _, _ => True
  | (st, _, _) :: rest, lo, hi => lo ≤ st ∧ st < hi ∧ StsOK rest (st + 1) hi

/-! ## Theorems -/

/-- Claim C3: decomposing `"abcdefghij"` with strategy `fixed_size`,
`chunkSize` 4 and `overlap` 1 yields exactly the four chunks
`(0,4,"abcd")`, `(3,7,"defg")`, `(6,10,"ghij")`, `(9,10,"j")`, in that
order (scenario E1; the result does not depend on the external regex
or tokenizer engines, which the `fixed_size` path never consults). -/
theorem C3_fixed_size_E1 (compileOk : List Char → Bool)
    (splitEngine : List Char → List Char → List (List Char))
    (encode : List Char → List Nat) (decode : List Nat → List Char) :
    decomposePure compileOk splitEngine encode decode "abcdefghij".toList
      Strategy.FIXED_SIZE
      { chunkSize := Option.some 4, overlap := Option.some 1 } =
    Except.ok
      [⟨0, "abcd".toList, 0, 4, ChunkMeta.none⟩,
       ⟨1, "defg".toList, 3, 7, ChunkMeta.none⟩,
       ⟨2, "ghij".toList, 6, 10, ChunkMeta.none⟩,
       ⟨3, "j".toList, 9, 10, ChunkMeta.none⟩] := by
  rfl

/-- Claim C9: the admission-control memory estimate gives
`2·length + 40` bytes for every string, 8 bytes for every number and
boolean, and for arrays and objects the recursive sum of the element
(and, for objects, key-string) estimates plus a 40-byte per-object
overhead. -/
theorem C9_memory_estimate :
    (∀ s : List Char, estimateObjectMemory (JsValue.str s) = 2 * s.length + 40) ∧
    (∀ q : ℚ, estimateObjectMemory (JsValue.num q) = 8) ∧
    (∀ b : Bool, estimateObjectMemory (JsValue.bool b) = 8) ∧
    (∀ es : List JsValue,
      estimateObjectMemory (JsValue.arr es) =
        40 + (es.map estimateObjectMemory).sum) ∧
    (∀ fs : List (List Char × JsValue),
      estimateObjectMemory (JsValue.obj fs) =
        40 + (fs.map (fun kv =>
          estimateStringMemory kv.1 + estimateObjectMemory kv.2)).sum) := by
  refine ⟨fun s => ?_, fun q => rfl, fun b => rfl, fun es => ?_, fun fs => ?_⟩
  · simp [estimateObjectMemory, estimateStringMemory, Nat.mul_comm]
  · have h : ∀ l : List JsValue, estimateArrMemory l = (l.map estimateObjectMemory).sum := by
      intro l
      induction l with
      | nil => rfl
      | cons v t ih => simp [estimateArrMemory, ih]
    simp [estimateObjectMemory, h]
  · have h : ∀ l : List (List Char × JsValue),
        estimateObjMemory l = (l.map (fun kv =>
          estimateStringMemory kv.1 + estimateObjectMemory kv.2)).sum := by
      intro l
      induction l with
      | nil => rfl
      | cons kv t ih => simp [estimateObjMemory, ih, Nat.add_assoc]
    simp [estimateObjectMemory, h]

/-- Claim C6: every pattern matching one of the declared ReDoS-prone
shapes is rejected by validation (which never reaches the
`new RegExp` compilation step on such patterns — the result does not
even depend on the compile outcome), and `safeRegexSearch` fails with
`INVALID_REGEX` without consulting the execution engine, so the
pattern is never run against any text. -/
theorem C6_redos_rejected (pattern : List Char)
    (hdanger : isDangerous pattern = true) :
    (∀ compileOk, (validateRegexPattern compileOk pattern).valid = false) ∧
    (∀ compileOk, (validateRegexPattern compileOk pattern).compileAttempted = false) ∧
    (∀ c1 c2, validateRegexPattern c1 pattern = validateRegexPattern c2 pattern) ∧
    (∀ compileOk engine text,
      safeRegexSearch compileOk engine pattern text =
        Except.error ⟨ErrorCode.INVALID_REGEX⟩) := by
  have hval : ∀ compileOk,
      validateRegexPattern compileOk pattern = RegexValidation.tooLong ∨
      validateRegexPattern compileOk pattern = RegexValidation.emptyPat ∨
      validateRegexPattern compileOk pattern = RegexValidation.dangerous := by
    intro compileOk
    unfold validateRegexPattern
    by_cases h1 : MAX_PATTERN_LENGTH < pattern.length
    · simp [h1]
    · by_cases h2 : (jsTrim pattern).length = 0
      · simp [h1, h2]
      · simp [h1, h2, hdanger]
  refine ⟨fun c => ?_, fun c => ?_, fun c1 c2 => ?_, fun c engine text => ?_⟩
  · rcases hval c with h | h | h <;> simp [h, RegexValidation.valid]
  · rcases hval c with h | h | h <;> simp [h, RegexValidation.compileAttempted]
  · unfold validateRegexPattern
    by_cases h1 : MAX_PATTERN_LENGTH < pattern.length
    · simp [h1]
    · by_cases h2 : (jsTrim pattern).length = 0
      · simp [h1, h2]
      · simp [h1, h2, hdanger]
  · unfold safeRegexSearch
    rcases hval c with h | h | h <;> simp [h, RegexValidation.valid]

theorem noTerm_nextMatch_none {l : List Char}
    (h : ∀ c ∈ l, isTermCh c = false) : sentenceNextMatch l = Option.none := by
  cases l with
  | nil => rfl
  | cons c t =>
    rw [sentenceNextMatch]
    have hc : isTermCh c = false := h c (List.mem_cons_self c t)
    rw [hc]
    simp only [Bool.false_eq_true, if_false]
    have ha : (c :: t).takeWhile (fun x => !(isTermCh x)) = c :: t := by
      rw [List.takeWhile_eq_self_iff]
      intro x hx
      simp [h x hx]
    simp [ha, List.drop_length]

/-- Claim C8 (corrected): for every input whose *trimmed* content is
non-empty and which contains no sentence terminator, `by_sentences`
emits exactly one chunk covering the whole text; moreover, whenever
the sentence scan emitted at least one sentence, the output is exactly
the scan's output (trimmed non-empty matches of `[^.!?]+[.!?]+\s*`).
The original claim's "every non-empty input" fails on whitespace-only
inputs (see the counterexample). -/
theorem C8_sentences_amended (content : List Char)
    (hterm : ∀ c ∈ content, isTermCh c = false)
    (hne : ¬ (jsTrim content).isEmpty) :
    decomposeBySentences content =
      [{ index := 0, content := jsTrim content, startOffset := 0,
         endOffset := (content.length : Int), metadata := ChunkMeta.single }] := by
  have h0 := noTerm_nextMatch_none hterm
  have hgo : sentencesGo content 0 0 = [] := by
    rw [sentencesGo]
    split
    · rfl
    · rename_i s len hmatch
      rw [h0] at hmatch
      exact absurd hmatch (by simp)
  unfold decomposeBySentences
  rw [hgo]
  simp [hne]

/-- Witness for C8 at `"hello"`: one whole-text chunk. -/
theorem C8_sentences_amended_witness :
    (∀ c ∈ "hello".toList, isTermCh c = false) ∧
    ¬ (jsTrim "hello".toList).isEmpty ∧
    decomposeBySentences "hello".toList =
      [{ index := 0, content := "hello".toList, startOffset := 0,
         endOffset := (5 : Int), metadata := ChunkMeta.single }] :=
  ⟨by decide, by decide, by
    have h := C8_sentences_amended "hello".toList (by decide) (by decide)
    simpa using h⟩

/-- Counterexample for C8 as stated: the single-space input is
non-empty and contains no sentence terminator, yet `by_sentences`
emits zero chunks (the fallback requires a non-empty *trimmed*
content). -/
theorem C8_counterexample :
    " ".toList ≠ [] ∧ (∀ c ∈ " ".toList, isTermCh c = false) ∧
    decomposeBySentences " ".toList = [] := by
  refine ⟨by decide, by decide, ?_⟩
  have hgo : sentencesGo " ".toList 0 0 = [] := by
    rw [sentencesGo]
    split
    · rfl
    · rename_i s len hmatch
      have : sentenceNextMatch " ".toList = Option.none := by decide
      rw [this] at hmatch
      exact absurd hmatch (by simp)
  unfold decomposeBySentences
  rw [hgo]
  simp [jsTrim]

/-- Claim C10: `loadContext` on a session already holding
`MAX_CONTEXTS_PER_SESSION` contexts fails with
`VARIABLE_LIMIT_EXCEEDED` even when the given id names an existing
context (a pure replacement), and the whole state — in particular the
existing context — is returned unchanged. -/
theorem C10_load_at_cap (analyze : List Char → ContextMetadata)
    (st : ManagerState) (sid cid content : List Char) (ses : Session)
    (old : ContextItem)
    (hval : validateContextId cid = true)
    (hsize : content.length ≤ MAX_CONTEXT_SIZE)
    (hses : st.sessions.lookup sid = Option.some ses)
    (hcap : MAX_CONTEXTS_PER_SESSION ≤ ses.contexts.length)
    (hex : ses.contexts.lookup cid = Option.some old) :
    loadContext analyze st sid cid content =
      (st, Except.error ⟨ErrorCode.VARIABLE_LIMIT_EXCEEDED⟩) := by
  unfold loadContext resolveSession
  rw [hses]
  simp [hval, Nat.not_lt.mpr hsize, hcap]

/-- Witness for C10: a session with 50 small contexts rejects the
replacement of its context `c0` and is left unchanged. -/
theorem C10_load_at_cap_witness :
    validateContextId "c0".toList = true ∧
    MAX_CONTEXTS_PER_SESSION ≤ c10Session.contexts.length ∧
    c10Session.contexts.lookup "c0".toList =
      Option.some ⟨"c0".toList, "x".toList, constMetadata, 0⟩ ∧
    loadContext (fun _ => constMetadata) c10State "s".toList "c0".toList "y".toList =
      (c10State, Except.error ⟨ErrorCode.VARIABLE_LIMIT_EXCEEDED⟩) :=
  ⟨by decide, by decide, by decide,
   C10_load_at_cap (fun _ => constMetadata) c10State "s".toList "c0".toList
     "y".toList c10Session ⟨"c0".toList, "x".toList, constMetadata, 0⟩
     (by decide) (by decide) (by rfl) (by decide) (by decide)⟩

/-- Claim C7: an append/prepend whose combined size exceeds the
per-context cap, or whose projected session memory exceeds the
per-session cap, fails with the corresponding typed error
(`CONTEXT_TOO_LARGE` / `SESSION_MEMORY_EXCEEDED`) and returns the
state unchanged, so the prior context — content and metadata — is
intact. -/
theorem C7_append_admission (analyze : List Char → ContextMetadata)
    (st : ManagerState) (sid cid content : List Char)
    (mode : Option AppendMode) (createIfMissing : Option Bool)
    (ses : Session) (existing : ContextItem)
    (hval : validateContextId cid = true)
    (hses : st.sessions.lookup sid = Option.some ses)
    (hex : ses.contexts.lookup cid = Option.some existing)
    (hfail :
      MAX_CONTEXT_SIZE <
        (combineContent existing.content content (mode.getD AppendMode.append)).length ∨
      ((combineContent existing.content content (mode.getD AppendMode.append)).length ≤
          MAX_CONTEXT_SIZE ∧
        (MAX_SESSION_MEMORY : Int) <
          (calculateSessionMemory ses : Int) -
            (estimateStringMemory existing.content : Int) +
            (estimateStringMemory
              (combineContent existing.content content (mode.getD AppendMode.append)) : Int))) :
    appendContext analyze st sid cid content mode createIfMissing =
        (st, Except.error ⟨ErrorCode.CONTEXT_TOO_LARGE⟩) ∨
    appendContext analyze st sid cid content mode createIfMissing =
        (st, Except.error ⟨ErrorCode.SESSION_MEMORY_EXCEEDED⟩) := by
  unfold appendContext resolveSession
  rw [hses]
  rcases hfail with hbig | ⟨hsz, hmem⟩
  · left
    simp [hval, hex, hbig]
  · right
    simp [hval, hex, Nat.not_lt.mpr hsz, hmem]

/-- Witness for C7: appending one character to a context already at
`MAX_CONTEXT_SIZE` fails with `CONTEXT_TOO_LARGE` and leaves the state
unchanged. -/
theorem C7_append_admission_witness :
    MAX_CONTEXT_SIZE <
      (combineContent c7Existing.content ['y'] (Option.none.getD AppendMode.append)).length ∧
    (appendContext (fun _ => constMetadata) c7State "s".toList "c".toList ['y']
        Option.none Option.none =
          (c7State, Except.error ⟨ErrorCode.CONTEXT_TOO_LARGE⟩) ∨
     appendContext (fun _ => constMetadata) c7State "s".toList "c".toList ['y']
        Option.none Option.none =
          (c7State, Except.error ⟨ErrorCode.SESSION_MEMORY_EXCEEDED⟩)) := by
  have h1 : c7Existing.content.length = MAX_CONTEXT_SIZE :=
    List.length_replicate MAX_CONTEXT_SIZE 'a'
  have hbig : MAX_CONTEXT_SIZE <
      (combineContent c7Existing.content ['y'] (Option.none.getD AppendMode.append)).length := by
    show MAX_CONTEXT_SIZE < (c7Existing.content ++ ['y']).length
    rw [List.length_append, h1]
    show MAX_CONTEXT_SIZE < MAX_CONTEXT_SIZE + 1
    omega
  refine ⟨hbig, ?_⟩
  exact C7_append_admission (fun _ => constMetadata) c7State "s".toList "c".toList
    ['y'] Option.none Option.none c7Session c7Existing
    (by decide) (by rfl) (by rfl) (Or.inl hbig)

theorem contextKeyStart_prefix_cacheKey (cid sid : List Char) (strat : Strategy)
    (opts : Options) :
    contextKeyStart sid cid <+: cacheKey cid sid strat opts :=
  ⟨strat.tag ++ ':' :: encodeOptions opts, by
    simp [contextKeyStart, cacheKey, List.append_assoc]⟩

theorem invalidateKeyed_no_pref {α : Type} (cache : List (List Char × α))
    (pref : List Char) :
    ∀ kv ∈ invalidateKeyed cache pref, pref.isPrefixOf kv.1 = false := by
  intro kv hkv
  rw [invalidateKeyed, List.mem_filter] at hkv
  simpa using hkv.2

theorem lookup_none_of_no_pref {α : Type} {l : List (List Char × α)}
    {pref k : List Char} (hall : ∀ kv ∈ l, pref.isPrefixOf kv.1 = false)
    (hk : pref <+: k) : l.lookup k = Option.none := by
  induction l with
  | nil => rfl
  | cons kv rest ih =>
    obtain ⟨k0, v0⟩ := kv
    have h0 := hall (k0, v0) (List.mem_cons_self _ _)
    have hne : (k == k0) = false := by
      by_contra hbe
      rw [Bool.not_eq_false, beq_iff_eq] at hbe
      subst hbe
      have htrue : pref.isPrefixOf k = true := by
        rw [List.isPrefixOf_iff_prefix]
        exact hk
      simp only at h0
      rw [htrue] at h0
      simp at h0
    simp only [List.lookup, hne]
    exact ih (fun kv hkv => hall kv (List.mem_cons_of_mem _ hkv))

theorem lookup_setKeyed_self {α : Type} (l : List (List Char × α))
    (k : List Char) (v : α) : (setKeyed l k v).lookup k = Option.some v := by
  induction l with
  | nil => simp [setKeyed, List.lookup]
  | cons kv rest ih =>
    obtain ⟨k0, v0⟩ := kv
    by_cases hk : k0 = k
    · subst hk
      simp [setKeyed, List.lookup]
    · have hne : (k == k0) = false := by
        rw [beq_eq_false_iff_ne]
        exact fun h => hk h.symm
      simp only [setKeyed, if_neg hk, List.lookup, hne]
      exact ih

theorem appendContext_ok_inv {analyze : List Char → ContextMetadata}
    {st : ManagerState} {sid cid content : List Char} {mode : Option AppendMode}
    {cim : Option Bool} {st' : ManagerState} {item : ContextItem}
    {ses : Session} {existing : ContextItem}
    (hses : st.sessions.lookup sid = Option.some ses)
    (hex : ses.contexts.lookup cid = Option.some existing)
    (happ : appendContext analyze st sid cid content mode cim =
      (st', Except.ok item)) :
    item = { existing with
               content := combineContent existing.content content (mode.getD AppendMode.append),
               metadata := analyze (combineContent existing.content content (mode.getD AppendMode.append)) } ∧
    st' = publishContext (invalidateAllCaches st ses.id cid) ses cid item := by
  unfold appendContext resolveSession at happ
  rw [hses] at happ
  simp only [hex] at happ
  split at happ
  · exact absurd (congrArg Prod.snd happ) (by simp)
  · split at happ
    · exact absurd (congrArg Prod.snd happ) (by simp)
    · split at happ
      · exact absurd (congrArg Prod.snd happ) (by simp)
      · have h2 := congrArg Prod.snd happ
        simp only at h2
        rw [Except.ok.injEq] at h2
        have h1 := congrArg Prod.fst happ
        simp only at h1
        subst h2
        exact ⟨rfl, h1.symm⟩

/-- Claim C1: when `appendContext` succeeds on an existing context,
the resulting state has no chunk-cache, index-cache or query-cache
entry keyed on that `(session, context)` (in particular every
chunk-cache lookup for it misses), the combined content is published,
and a subsequent cached `decompose` recomputes from the post-append
content (it returns exactly the pure pipeline's result rather than any
previously cached chunks).  In the sequential embedding the
invalidations and the publish take effect in one atomic step, in the
source's order (invalidate, then publish). -/
theorem C1_append_invalidation (compileOk : List Char → Bool)
    (splitEngine : List Char → List Char → List (List Char))
    (encode : List Char → List Nat) (decode : List Nat → List Char)
    (analyze : List Char → ContextMetadata)
    (st : ManagerState) (sid cid content : List Char) (mode : Option AppendMode)
    (cim : Option Bool) (st' : ManagerState) (item : ContextItem)
    (ses : Session) (existing : ContextItem)
    (hses : st.sessions.lookup sid = Option.some ses)
    (hex : ses.contexts.lookup cid = Option.some existing)
    (happ : appendContext analyze st sid cid content mode cim =
      (st', Except.ok item)) :
    (∀ strat opts h, chunkCacheGet st'.chunkCache cid ses.id strat opts h = Option.none) ∧
    (∀ kv ∈ st'.chunkCache, (contextKeyStart ses.id cid).isPrefixOf kv.1 = false) ∧
    (∀ kv ∈ st'.indexCache, (contextKeyStart ses.id cid).isPrefixOf kv.1 = false) ∧
    (∀ kv ∈ st'.queryCache, ¬ (kv.1.sessionId = ses.id ∧ kv.1.contextId = cid)) ∧
    (∃ ses2, st'.sessions.lookup ses.id = Option.some ses2 ∧
      ses2.contexts.lookup cid = Option.some item ∧
      item.content = combineContent existing.content content (mode.getD AppendMode.append)) ∧
    (∀ strat opts,
      (decomposeWithCache compileOk splitEngine encode decode st'.chunkCache
        cid ses.id strat opts item.content).1 =
      decomposePure compileOk splitEngine encode decode item.content strat opts) := by
  obtain ⟨hitem, hst⟩ := appendContext_ok_inv hses hex happ
  have hcc : st'.chunkCache =
      invalidateKeyed st.chunkCache (contextKeyStart ses.id cid) := by
    rw [hst]; rfl
  have hic : st'.indexCache =
      invalidateKeyed st.indexCache (contextKeyStart ses.id cid) := by
    rw [hst]; rfl
  have hqc : st'.queryCache = queryCacheInvalidate st.queryCache cid ses.id := by
    rw [hst]; rfl
  have hnone : ∀ strat opts h,
      chunkCacheGet st'.chunkCache cid ses.id strat opts h = Option.none := by
    intro strat opts h
    unfold chunkCacheGet
    have hlook : st'.chunkCache.lookup (cacheKey cid ses.id strat opts) = Option.none := by
      rw [hcc]
      exact lookup_none_of_no_pref (invalidateKeyed_no_pref _ _)
        (contextKeyStart_prefix_cacheKey cid ses.id strat opts)
    rw [hlook]
  refine ⟨hnone, ?_, ?_, ?_, ?_, ?_⟩
  · rw [hcc]; exact invalidateKeyed_no_pref _ _
  · rw [hic]; exact invalidateKeyed_no_pref _ _
  · rw [hqc]
    intro kv hkv
    rw [queryCacheInvalidate, List.mem_filter] at hkv
    have := hkv.2
    simp only [Bool.not_eq_true', Bool.and_eq_false_iff, beq_eq_false_iff_ne] at this
    rcases this with h | h
    · exact fun hc => h hc.1
    · exact fun hc => h hc.2
  · refine ⟨{ ses with contexts := setKeyed ses.contexts cid item }, ?_, ?_, ?_⟩
    · rw [hst]
      exact lookup_setKeyed_self _ _ _
    · exact lookup_setKeyed_self _ _ _
    · rw [hitem]
  · intro strat opts
    simp only [decomposeWithCache]
    rw [hnone strat opts (hashContent item.content)]
    cases hd : decomposePure compileOk splitEngine encode decode item.content strat opts with
    | error e => simp [hd]
    | ok chunks => simp [hd]

/-- Witness for C1: appending `" world"` to the context `c` of session
`s` (whose chunk, index and query caches each hold an entry for
`(s, c)`) publishes `"hello world"`, leaves no `(s, c)` cache entry
reachable, and a subsequent cached decompose recomputes from the new
content. -/
theorem C1_append_invalidation_witness :
    c1State.sessions.lookup "s".toList = Option.some c1Session ∧
    c1Session.contexts.lookup "c".toList = Option.some c1Ctx ∧
    c1Result = (c1Result.1, Except.ok c1Item) ∧
    chunkCacheGet c1Result.1.chunkCache "c".toList "s".toList Strategy.FIXED_SIZE
      c1Opts (hashContent c1Item.content) = Option.none ∧
    (decomposeWithCache (fun _ => true) (fun _ _ => []) charEncode charDecode
        c1Result.1.chunkCache "c".toList "s".toList Strategy.FIXED_SIZE c1Opts
        c1Item.content).1 =
      decomposePure (fun _ => true) (fun _ _ => []) charEncode charDecode
        c1Item.content Strategy.FIXED_SIZE c1Opts := by
  have hses : c1State.sessions.lookup "s".toList = Option.some c1Session := by rfl
  have hex : c1Session.contexts.lookup "c".toList = Option.some c1Ctx := by rfl
  have happ : appendContext (fun _ => constMetadata) c1State "s".toList "c".toList
      " world".toList Option.none Option.none = (c1Result.1, Except.ok c1Item) := by rfl
  have h := C1_append_invalidation (fun _ => true) (fun _ _ => []) charEncode
    charDecode (fun _ => constMetadata) c1State "s".toList "c".toList
    " world".toList Option.none Option.none c1Result.1 c1Item c1Session c1Ctx
    hses hex happ
  exact ⟨hses, hex, happ, h.1 Strategy.FIXED_SIZE c1Opts (hashContent c1Item.content),
    h.2.2.2.2.2 Strategy.FIXED_SIZE c1Opts⟩

/-- Claim C4: for the three chunks `"the cat sat"`, `"dogs bark"`,
`"the cat and the cat"`, ranking with query `"cat"` under BM25
(`k1 = 1.5`, `b = 0.75`) returns chunk 2 first and chunk 0 second,
and chunk 1 is absent (its score is 0 and non-positive scores are
filtered).  `lg` abstracts `Math.log`; the result depends on it only
through the sign of the idf factor `lg (8/5)`, positive for the real
natural logarithm since `8/5 > 1`. -/
theorem C4_bm25_E3 (lg : ℚ → ℚ) (hpos : 0 < lg (8 / 5)) :
    (rank lg c4Entry "cat".toList 10 Option.none).map RankedChunk.index = [2, 0] ∧
    1 ∉ (rank lg c4Entry "cat".toList 10 Option.none).map RankedChunk.index := by
  have hqf : termFreqs (tokenizeText "cat".toList) = [(['c','a','t'], 1)] := by decide
  have hps : lookupTerm c4Entry.postings ['c','a','t'] =
      Option.some [⟨0, 1⟩, ⟨2, 2⟩] := by decide
  have hcc : c4Entry.chunkCount = 3 := by decide
  have htot : (List.foldl buildStep
      { postings := [], docLengths := [], chunkMetadata := [], totalLength := 0 }
      c4Chunks).totalLength = 10 := by decide
  have hlen : c4Chunks.length = 3 := by decide
  have havg : c4Entry.avgDocLength = 10/3 := by
    show (buildIndex ⟨0,0⟩ c4Chunks).avgDocLength = 10/3
    simp only [buildIndex, htot, hlen]
    norm_num
  have hdl0 : lookupNatD c4Entry.docLengths 0 0 = 3 := by decide
  have hdl2 : lookupNatD c4Entry.docLengths 2 0 = 5 := by decide
  have hb0 : bm25Term lg c4Entry 1 2 ⟨0, 1⟩ = lg (8/5) * (200/191) := by
    simp only [bm25Term, hcc, havg, hdl0, K1, B]
    norm_num
  have hb2 : bm25Term lg c4Entry 1 2 ⟨2, 2⟩ = lg (8/5) * (16/13) := by
    simp only [bm25Term, hcc, havg, hdl2, K1, B]
    norm_num
  have hs0 : rankScores lg c4Entry (termFreqs (tokenizeText "cat".toList)) 0 =
      lg (8/5) * (200/191) := by
    rw [hqf]
    simp only [rankScores, List.foldl]
    rw [hps]
    simp only [List.isEmpty, List.foldl]
    norm_num
    rw [hb0]
  have hs1 : rankScores lg c4Entry (termFreqs (tokenizeText "cat".toList)) 1 = 0 := by
    rw [hqf]
    simp only [rankScores, List.foldl]
    rw [hps]
    simp only [List.isEmpty, List.foldl]
    norm_num
  have hs2 : rankScores lg c4Entry (termFreqs (tokenizeText "cat".toList)) 2 =
      lg (8/5) * (16/13) := by
    rw [hqf]
    simp only [rankScores, List.foldl]
    rw [hps]
    simp only [List.isEmpty, List.foldl]
    norm_num
    rw [hb2]
  have h0pos : 0 < lg (8/5) * (200/191) := mul_pos hpos (by norm_num)
  have h2pos : 0 < lg (8/5) * (16/13) := mul_pos hpos (by norm_num)
  have hlt : lg (8/5) * (200/191) < lg (8/5) * (16/13) :=
    mul_lt_mul_of_pos_left (by norm_num) hpos
  have hres : rank lg c4Entry "cat".toList 10 Option.none =
      [⟨2, lg (8/5) * (16/13)⟩, ⟨0, lg (8/5) * (200/191)⟩] := by
    simp only [rank]
    rw [if_neg (by decide)]
    simp only [hcc]
    have hrange : List.range 3 = [0, 1, 2] := rfl
    rw [hrange]
    simp only [List.filterMap, hs0, hs1, hs2]
    rw [if_neg (not_le.mpr h0pos)]
    rw [if_pos (le_refl (0:ℚ))]
    rw [if_neg (not_le.mpr h2pos)]
    simp only [List.insertionSort, List.orderedInsert]
    rw [if_neg (by simp only [scoreGE]; exact not_le.mpr hlt)]
    rfl
  rw [hres]
  constructor
  · rfl
  · simp

/-- Witness for C4 with the sign-faithful logarithm stand-in. -/
theorem C4_bm25_E3_witness :
    (0:ℚ) < ratLogLin (8/5) ∧
    (rank ratLogLin c4Entry "cat".toList 10 Option.none).map RankedChunk.index = [2, 0] :=
  ⟨by norm_num [ratLogLin], (C4_bm25_E3 ratLogLin (by norm_num [ratLogLin])).1⟩

/-- Witness for C6 at the spec's scenario E4: the pattern `(a+)+b`
matches a declared ReDoS shape and is rejected with `INVALID_REGEX`
without execution. -/
theorem C6_redos_rejected_witness :
    isDangerous "(a+)+b".toList = true ∧
    (validateRegexPattern (fun _ => true) "(a+)+b".toList).valid = false ∧
    safeRegexSearch (fun _ => true) (fun _ _ => []) "(a+)+b".toList "aaab".toList =
      Except.error ⟨ErrorCode.INVALID_REGEX⟩ :=
  ⟨by decide,
   (C6_redos_rejected "(a+)+b".toList (by decide)).1 (fun _ => true),
   (C6_redos_rejected "(a+)+b".toList (by decide)).2.2.2 (fun _ => true)
     (fun _ _ => []) "aaab".toList⟩

theorem bumpFreq_mem_keys (l : List (List Char × Nat)) (u t : List Char) :
    t ∈ (bumpFreq l u).map Prod.fst ↔ t ∈ l.map Prod.fst ∨ t = u := by
  induction l with
  | nil => simp [bumpFreq]
  | cons kv rest ih =>
    obtain ⟨k, n⟩ := kv
    by_cases hk : k = u
    · subst hk
      simp [bumpFreq]
      tauto
    · simp only [bumpFreq, if_neg hk, List.map_cons, List.mem_cons, ih]
      tauto

theorem bumpFreq_nodup_keys (l : List (List Char × Nat)) (u : List Char)
    (h : (l.map Prod.fst).Nodup) : ((bumpFreq l u).map Prod.fst).Nodup := by
  induction l with
  | nil => simp [bumpFreq]
  | cons kv rest ih =>
    obtain ⟨k, n⟩ := kv
    simp only [List.map_cons, List.nodup_cons] at h
    by_cases hk : k = u
    · subst hk
      simpa [bumpFreq, List.nodup_cons] using h
    · simp only [bumpFreq, if_neg hk, List.map_cons, List.nodup_cons]
      refine ⟨?_, ih h.2⟩
      rw [bumpFreq_mem_keys]
      rintro (hmem | rfl)
      · exact h.1 hmem
      · exact hk rfl

theorem bumpFreq_val_ge1 (l : List (List Char × Nat)) (u : List Char)
    (h : ∀ tv ∈ l, 1 ≤ tv.2) : ∀ tv ∈ bumpFreq l u, 1 ≤ tv.2 := by
  induction l with
  | nil =>
    intro tv htv
    simp only [bumpFreq, List.mem_singleton] at htv
    subst htv
    exact le_refl 1
  | cons kv rest ih =>
    obtain ⟨k, n⟩ := kv
    intro tv htv
    by_cases hk : k = u
    · subst hk
      have hb : bumpFreq ((k, n) :: rest) k = (k, n + 1) :: rest := by
        simp [bumpFreq]
      rw [hb, List.mem_cons] at htv
      rcases htv with heq | htv
      · simp [heq]
      · exact h tv (List.mem_cons_of_mem _ htv)
    · have hb : bumpFreq ((k, n) :: rest) u = (k, n) :: bumpFreq rest u := by
        simp [bumpFreq, hk]
      rw [hb, List.mem_cons] at htv
      rcases htv with heq | htv
      · rw [heq]
        exact h (k, n) (List.mem_cons_self _ _)
      · exact ih (fun x hx => h x (List.mem_cons_of_mem _ hx)) tv htv

theorem termFreqsGo_mem_keys (terms : List (List Char)) :
    ∀ (acc : List (List Char × Nat)) (t : List Char),
      t ∈ (terms.foldl bumpFreq acc).map Prod.fst ↔ t ∈ acc.map Prod.fst ∨ t ∈ terms := by
  induction terms with
  | nil => simp
  | cons u rest ih =>
    intro acc t
    simp only [List.foldl_cons, ih, bumpFreq_mem_keys, List.mem_cons]
    tauto

theorem termFreqs_mem_keys (terms : List (List Char)) (t : List Char) :
    t ∈ (termFreqs terms).map Prod.fst ↔ t ∈ terms := by
  rw [termFreqs, termFreqsGo_mem_keys]
  simp

theorem termFreqs_nodup_keys (terms : List (List Char)) :
    ((termFreqs terms).map Prod.fst).Nodup := by
  rw [termFreqs]
  have : ∀ (acc : List (List Char × Nat)), (acc.map Prod.fst).Nodup →
      ((terms.foldl bumpFreq acc).map Prod.fst).Nodup := by
    induction terms with
    | nil => intro acc h; simpa using h
    | cons u rest ih =>
      intro acc h
      exact ih _ (bumpFreq_nodup_keys acc u h)
  exact this [] (by simp)

theorem termFreqs_val_ge1 (terms : List (List Char)) :
    ∀ tv ∈ termFreqs terms, 1 ≤ tv.2 := by
  rw [termFreqs]
  have : ∀ (acc : List (List Char × Nat)), (∀ tv ∈ acc, 1 ≤ tv.2) →
      ∀ tv ∈ terms.foldl bumpFreq acc, 1 ≤ tv.2 := by
    induction terms with
    | nil => intro acc h; simpa using h
    | cons u rest ih =>
      intro acc h
      exact ih _ (bumpFreq_val_ge1 acc u h)
  exact this [] (by simp)

theorem termFreqs_fst_mem {terms : List (List Char)} {tv : List Char × Nat}
    (h : tv ∈ termFreqs terms) : tv.1 ∈ terms := by
  rw [← termFreqs_mem_keys terms tv.1]
  exact List.mem_map.mpr ⟨tv, h, rfl⟩

theorem lookupTerm_addPosting_self (l : List (List Char × List Posting))
    (t : List Char) (p : Posting) :
    lookupTerm (addPosting l t p) t =
      Option.some ((match lookupTerm l t with
        | Option.some ps => ps
        | Option.none => []) ++ [p]) := by
  induction l with
  | nil => simp [addPosting, lookupTerm]
  | cons kv rest ih =>
    obtain ⟨k, ps⟩ := kv
    by_cases hk : k = t
    · subst hk
      simp [addPosting, lookupTerm]
    · simp only [addPosting, if_neg hk, lookupTerm, if_neg hk]
      exact ih

theorem lookupTerm_addPosting_ne (l : List (List Char × List Posting))
    (t t' : List Char) (p : Posting) (h : t' ≠ t) :
    lookupTerm (addPosting l t p) t' = lookupTerm l t' := by
  induction l with
  | nil =>
    simp only [addPosting, lookupTerm]
    rw [if_neg (fun hc => h hc.symm)]
  | cons kv rest ih =>
    obtain ⟨k, ps⟩ := kv
    by_cases hk : k = t
    · subst hk
      simp only [addPosting, if_pos rfl, lookupTerm]
      rw [if_neg (fun hc : k = t' => h hc.symm), if_neg (fun hc : k = t' => h hc.symm)]
    · simp only [addPosting, if_neg hk, lookupTerm]
      by_cases hk' : k = t'
      · simp [hk']
      · rw [if_neg hk', if_neg hk']
        exact ih

theorem lookup_eq_none_of_not_mem_keys {β : Type} (l : List (List Char × β))
    (t : List Char) (h : t ∉ l.map Prod.fst) : l.lookup t = Option.none := by
  induction l with
  | nil => rfl
  | cons kv rest ih =>
    obtain ⟨k, v⟩ := kv
    simp only [List.map_cons, List.mem_cons, not_or] at h
    have hne : (t == k) = false := by
      rw [beq_eq_false_iff_ne]
      exact h.1
    simp only [List.lookup, hne]
    exact ih h.2

theorem lookupTerm_foldAdd (d : Nat) (tfs : List (List Char × Nat)) :
    ∀ (l : List (List Char × List Posting)) (t : List Char),
      (tfs.map Prod.fst).Nodup →
      lookupTerm (tfs.foldl (fun ps tv => addPosting ps tv.1 ⟨d, tv.2⟩) l) t =
        (match tfs.lookup t with
          | Option.some v =>
            Option.some ((match lookupTerm l t with
              | Option.some ps => ps
              | Option.none => []) ++ [⟨d, v⟩])
          | Option.none => lookupTerm l t) := by
  induction tfs with
  | nil => intro l t _; rfl
  | cons kv rest ih =>
    intro l t hnd
    obtain ⟨k, v⟩ := kv
    simp only [List.map_cons, List.nodup_cons] at hnd
    simp only [List.foldl_cons]
    rw [ih _ t hnd.2]
    by_cases hk : t = k
    · subst hk
      have hr : rest.lookup t = Option.none :=
        lookup_eq_none_of_not_mem_keys rest t hnd.1
      rw [hr]
      simp only [List.lookup_cons, beq_self_eq_true]
      rw [lookupTerm_addPosting_self]
    · have hbne : (t == k) = false := by
        rw [beq_eq_false_iff_ne]
        exact hk
      simp only [List.lookup_cons, hbne]
      rw [lookupTerm_addPosting_ne _ _ _ _ hk]

theorem sum_pos_exists (l : List ℚ) (hnn : ∀ x ∈ l, 0 ≤ x) (hpos : 0 < l.sum) :
    ∃ x ∈ l, 0 < x := by
  induction l with
  | nil => simp at hpos
  | cons a t ih =>
    by_cases ha : 0 < a
    · exact ⟨a, List.mem_cons_self _ _, ha⟩
    · have ha0 : a = 0 :=
        le_antisymm (not_lt.mp ha) (hnn a (List.mem_cons_self _ _))
      rw [List.sum_cons, ha0, zero_add] at hpos
      obtain ⟨x, hx, hxp⟩ := ih (fun x hx => hnn x (List.mem_cons_of_mem _ hx)) hpos
      exact ⟨x, List.mem_cons_of_mem _ hx, hxp⟩

theorem sum_pos_of_mem {l : List ℚ} {x : ℚ} (hx : x ∈ l) (hxp : 0 < x)
    (hnn : ∀ y ∈ l, 0 ≤ y) : 0 < l.sum := by
  induction l with
  | nil => simp at hx
  | cons a t ih =>
    rw [List.sum_cons]
    rcases List.mem_cons.mp hx with rfl | hx2
    · have : 0 ≤ t.sum := List.sum_nonneg (fun y hy => hnn y (List.mem_cons_of_mem _ hy))
      linarith
    · have ha : 0 ≤ a := hnn a (List.mem_cons_self _ _)
      have := ih hx2 (fun y hy => hnn y (List.mem_cons_of_mem _ hy))
      linarith

theorem posting_foldl_apply (lg : ℚ → ℚ) (entry : IndexEntry) (qf df : Nat) :
    ∀ (ps : List Posting) (sc : Nat → ℚ) (i : Nat),
      (ps.foldl (fun sc2 p => fun j =>
        if j = p.docId then sc2 j + bm25Term lg entry qf df p else sc2 j) sc) i =
      sc i + ((ps.filter (fun p => p.docId == i)).map (bm25Term lg entry qf df)).sum := by
  intro ps
  induction ps with
  | nil => intro sc i; simp
  | cons p rest ih =>
    intro sc i
    rw [List.foldl_cons, ih]
    by_cases hp : p.docId = i
    · have hb : (p.docId == i) = true := beq_iff_eq.mpr hp
      simp only [List.filter_cons, hb, if_true, List.map_cons, List.sum_cons,
        if_pos hp.symm]
      ring
    · have hb : (p.docId == i) = false := beq_eq_false_iff_ne.mpr hp
      simp only [List.filter_cons, hb, Bool.false_eq_true, if_false]
      rw [if_neg (fun hc => hp hc.symm)]

theorem rankScores_eq_sum (lg : ℚ → ℚ) (entry : IndexEntry) :
    ∀ (qfs : List (List Char × Nat)) (sc : Nat → ℚ) (i : Nat),
      (qfs.foldl (fun sc tq =>
        match lookupTerm entry.postings tq.1 with
        | Option.none => sc
        | Option.some ps =>
          if ps.isEmpty then sc
          else
            ps.foldl (fun sc2 p => fun j =>
              if j = p.docId then sc2 j + bm25Term lg entry tq.2 ps.length p
              else sc2 j) sc) sc) i =
      sc i + (qfs.map (termScore lg entry i)).sum := by
  intro qfs
  induction qfs with
  | nil => intro sc i; simp
  | cons tq rest ih =>
    intro sc i
    rw [List.foldl_cons, ih]
    simp only [List.map_cons, List.sum_cons]
    cases hl : lookupTerm entry.postings tq.1 with
    | none =>
      simp only [termScore, hl]
      ring
    | some ps =>
      by_cases hemp : ps.isEmpty
      · simp only [termScore, hl, if_pos hemp]
        ring
      · simp only [termScore, hl, if_neg hemp]
        rw [posting_foldl_apply]
        ring

theorem rankScores_apply (lg : ℚ → ℚ) (entry : IndexEntry)
    (qfs : List (List Char × Nat)) (i : Nat) :
    rankScores lg entry qfs i = (qfs.map (termScore lg entry i)).sum := by
  have h := rankScores_eq_sum lg entry qfs (fun _ => 0) i
  simpa [rankScores] using h

theorem bm25Term_pos (lg : ℚ → ℚ) (hlog : ∀ x : ℚ, 1 < x → 0 < lg x)
    (entry : IndexEntry) (havg : 0 ≤ entry.avgDocLength) {qf df : Nat}
    (hqf : 1 ≤ qf) (hdf1 : 1 ≤ df) (hdfN : df ≤ entry.chunkCount)
    (p : Posting) (htf : 1 ≤ p.tf) : 0 < bm25Term lg entry qf df p := by
  unfold bm25Term
  have hN : (df : ℚ) ≤ (entry.chunkCount : ℚ) := Nat.cast_le.mpr hdfN
  have harg : 1 < 1 + ((entry.chunkCount : ℚ) - df + 1 / 2) / ((df : ℚ) + 1 / 2) := by
    have hnum : 0 < (entry.chunkCount : ℚ) - df + 1 / 2 := by linarith
    have hden : 0 < (df : ℚ) + 1 / 2 := by positivity
    have := div_pos hnum hden
    linarith
  have hidf := hlog _ harg
  have hdl : (0 : ℚ) ≤ (lookupNatD entry.docLengths p.docId 0 : ℚ) := by positivity
  have hdiv : (0 : ℚ) ≤ (lookupNatD entry.docLengths p.docId 0 : ℚ) / entry.avgDocLength :=
    div_nonneg hdl havg
  have htfq : (1 : ℚ) ≤ (p.tf : ℚ) := by exact_mod_cast htf
  have hden : (0 : ℚ) < (p.tf : ℚ) + K1 * (1 - B + B *
      ((lookupNatD entry.docLengths p.docId 0 : ℚ) / entry.avgDocLength)) := by
    rw [K1, B]
    nlinarith
  have hqfq : (0 : ℚ) < (qf : ℚ) := by
    have : (1 : ℚ) ≤ (qf : ℚ) := by exact_mod_cast hqf
    linarith
  have hfrac : 0 < ((p.tf : ℚ) * (K1 + 1)) / ((p.tf : ℚ) + K1 * (1 - B + B *
      ((lookupNatD entry.docLengths p.docId 0 : ℚ) / entry.avgDocLength))) := by
    apply div_pos
    · rw [K1]
      nlinarith
    · exact hden
  exact mul_pos (mul_pos hidf hfrac) hqfq

theorem termScore_nonneg (lg : ℚ → ℚ) (hlog : ∀ x : ℚ, 1 < x → 0 < lg x)
    (entry : IndexEntry) (hok : EntryOK entry) {tq : List Char × Nat}
    (hqf : 1 ≤ tq.2) (i : Nat) : 0 ≤ termScore lg entry i tq := by
  unfold termScore
  cases hl : lookupTerm entry.postings tq.1 with
  | none => exact le_refl 0
  | some ps =>
    by_cases hemp : ps.isEmpty
    · simp [hemp]
    · simp only [if_neg hemp]
      apply List.sum_nonneg
      intro x hx
      obtain ⟨p, hpmem, rfl⟩ := List.mem_map.mp hx
      have hpps := List.mem_of_mem_filter hpmem
      obtain ⟨hne, hlen, hall⟩ := hok.2 _ _ hl
      have hp := hall p hpps
      exact le_of_lt (bm25Term_pos lg hlog entry hok.1 hqf
        (List.length_pos_of_ne_nil hne) hlen p hp.1)

theorem termScore_pos_iff (lg : ℚ → ℚ) (hlog : ∀ x : ℚ, 1 < x → 0 < lg x)
    (entry : IndexEntry) (hok : EntryOK entry) {tq : List Char × Nat}
    (hqf : 1 ≤ tq.2) (i : Nat) :
    0 < termScore lg entry i tq ↔
      ∃ ps, lookupTerm entry.postings tq.1 = Option.some ps ∧
        ∃ p ∈ ps, p.docId = i := by
  unfold termScore
  cases hl : lookupTerm entry.postings tq.1 with
  | none => simp
  | some ps =>
    obtain ⟨hne, hlen, hall⟩ := hok.2 _ _ hl
    have hemp : ¬ ps.isEmpty := by simpa [List.isEmpty_iff] using hne
    simp only [if_neg hemp, Option.some.injEq]
    constructor
    · intro hsum
      have hfilter : ps.filter (fun p => p.docId == i) ≠ [] := by
        intro hnil
        rw [hnil] at hsum
        simp at hsum
      obtain ⟨p, hp⟩ := List.exists_mem_of_ne_nil _ hfilter
      have hmem := List.mem_filter.mp hp
      exact ⟨ps, rfl, p, hmem.1, beq_iff_eq.mp hmem.2⟩
    · rintro ⟨ps2, rfl, p, hpmem, hpi⟩
      have hpf : p ∈ ps.filter (fun p => p.docId == i) :=
        List.mem_filter.mpr ⟨hpmem, beq_iff_eq.mpr hpi⟩
      have hppos : 0 < bm25Term lg entry tq.2 ps.length p :=
        bm25Term_pos lg hlog entry hok.1 hqf
          (List.length_pos_of_ne_nil hne) hlen p (hall p hpmem).1
      exact sum_pos_of_mem (List.mem_map.mpr ⟨p, hpf, rfl⟩) hppos
        (fun y hy => by
          obtain ⟨p2, hp2, rfl⟩ := List.mem_map.mp hy
          exact le_of_lt (bm25Term_pos lg hlog entry hok.1 hqf
            (List.length_pos_of_ne_nil hne) hlen p2
            (hall p2 (List.mem_of_mem_filter hp2)).1))

theorem scores_pos_iff (lg : ℚ → ℚ) (hlog : ∀ x : ℚ, 1 < x → 0 < lg x)
    (entry : IndexEntry) (hok : EntryOK entry)
    (qfs : List (List Char × Nat)) (hqfs : ∀ tq ∈ qfs, 1 ≤ tq.2) (i : Nat) :
    0 < rankScores lg entry qfs i ↔
      ∃ tq ∈ qfs, ∃ ps, lookupTerm entry.postings tq.1 = Option.some ps ∧
        ∃ p ∈ ps, p.docId = i := by
  rw [rankScores_apply]
  constructor
  · intro hsum
    obtain ⟨x, hx, hxp⟩ := sum_pos_exists _
      (fun x hx => by
        obtain ⟨tq, htq, rfl⟩ := List.mem_map.mp hx
        exact termScore_nonneg lg hlog entry hok (hqfs tq htq) i) hsum
    obtain ⟨tq, htq, rfl⟩ := List.mem_map.mp hx
    exact ⟨tq, htq, (termScore_pos_iff lg hlog entry hok (hqfs tq htq) i).mp hxp⟩
  · rintro ⟨tq, htq, hpres⟩
    have hpos := (termScore_pos_iff lg hlog entry hok (hqfs tq htq) i).mpr hpres
    exact sum_pos_of_mem (List.mem_map.mpr ⟨tq, htq, rfl⟩) hpos
      (fun y hy => by
        obtain ⟨tq2, htq2, rfl⟩ := List.mem_map.mp hy
        exact termScore_nonneg lg hlog entry hok (hqfs tq2 htq2) i)

theorem rank_mem_iff (lg : ℚ → ℚ) (entry : IndexEntry) (q : List Char)
    (K : Nat) (hK : entry.chunkCount ≤ K) (i : Nat) :
    i ∈ (rank lg entry q K Option.none).map RankedChunk.index ↔
      ¬ ((tokenizeText q).isEmpty = true ∨ entry.chunkCount = 0) ∧
        i < entry.chunkCount ∧
        0 < rankScores lg entry (termFreqs (tokenizeText q)) i := by
  unfold rank
  by_cases hempty : (tokenizeText q).isEmpty = true ∨ entry.chunkCount = 0
  · rw [if_pos hempty]
    constructor
    · intro h
      exact absurd h (List.not_mem_nil i)
    · rintro ⟨hne, -, -⟩
      exact absurd hempty hne
  · rw [if_neg hempty]
    dsimp only
    set scores := rankScores lg entry (termFreqs (tokenizeText q)) with hscores
    set f : Nat → Option RankedChunk := fun j =>
      if scores j ≤ 0 then Option.none else Option.some ⟨j, scores j⟩ with hf
    have hfeq : (List.range entry.chunkCount).filterMap (fun j =>
        if scores j ≤ 0 then Option.none
        else match (Option.none : Option ℚ) with
          | Option.some m => if scores j < m then Option.none
                             else Option.some (⟨j, scores j⟩ : RankedChunk)
          | Option.none => Option.some ⟨j, scores j⟩) =
        (List.range entry.chunkCount).filterMap f := by
      apply List.filterMap_congr
      intro j _
      by_cases hj : scores j ≤ 0 <;> simp [hf, hj]
    rw [hfeq]
    have hlen : (List.insertionSort scoreGE ((List.range entry.chunkCount).filterMap f)).length ≤ K := by
      rw [List.length_insertionSort]
      exact le_trans (List.length_filterMap_le _ _) (by simpa using hK)
    rw [List.take_of_length_le hlen]
    rw [List.mem_map]
    constructor
    · rintro ⟨rc, hrc, hidx⟩
      have hrc2 : rc ∈ (List.range entry.chunkCount).filterMap f :=
        ((List.perm_insertionSort scoreGE _).mem_iff).mp hrc
      obtain ⟨j, hj, hfj⟩ := List.mem_filterMap.mp hrc2
      simp only [hf] at hfj
      by_cases hjs : scores j ≤ 0
      · rw [if_pos hjs] at hfj
        exact absurd hfj (by simp)
      · rw [if_neg hjs] at hfj
        have : rc = ⟨j, scores j⟩ := by
          simpa using hfj.symm
        subst this
        simp only at hidx
        subst hidx
        exact ⟨hempty, List.mem_range.mp hj, not_le.mp hjs⟩
    · rintro ⟨-, hilt, hipos⟩
      refine ⟨⟨i, scores i⟩, ?_, rfl⟩
      apply ((List.perm_insertionSort scoreGE _).mem_iff).mpr
      apply List.mem_filterMap.mpr
      refine ⟨i, List.mem_range.mpr hilt, ?_⟩
      simp only [hf]
      rw [if_neg (not_le.mpr hipos)]

theorem lookup_mem_of_eq_some {β : Type} {l : List (List Char × β)} {t : List Char}
    {v : β} (h : l.lookup t = Option.some v) : (t, v) ∈ l := by
  induction l with
  | nil => exact absurd h (by simp)
  | cons kv rest ih =>
    obtain ⟨k, w⟩ := kv
    by_cases hk : t = k
    · subst hk
      simp only [List.lookup_cons, beq_self_eq_true] at h
      injection h with h
      subst h
      exact List.mem_cons_self _ _
    · have hbne : (t == k) = false := beq_eq_false_iff_ne.mpr hk
      simp only [List.lookup_cons, hbne] at h
      exact List.mem_cons_of_mem _ (ih h)

theorem postInv_buildStep (st : BuildState) (chunk : Chunk) (n bound : Nat)
    (hch : chunk.index < bound) (hinv : PostInv st.postings n bound) :
    PostInv (buildStep st chunk).postings (n + 1) bound := by
  intro t ps hl
  have hnd := termFreqs_nodup_keys (tokenizeText chunk.content)
  have hstep : (buildStep st chunk).postings =
      (termFreqs (tokenizeText chunk.content)).foldl
        (fun ps tv => addPosting ps tv.1 ⟨chunk.index, tv.2⟩) st.postings := rfl
  rw [hstep, lookupTerm_foldAdd _ _ _ _ hnd] at hl
  cases hk : (termFreqs (tokenizeText chunk.content)).lookup t with
  | none =>
    rw [hk] at hl
    obtain ⟨h1, h2, h3⟩ := hinv t ps hl
    exact ⟨h1, le_trans h2 (Nat.le_succ n), h3⟩
  | some v =>
    rw [hk] at hl
    have hv1 : 1 ≤ v :=
      termFreqs_val_ge1 (tokenizeText chunk.content) (t, v) (lookup_mem_of_eq_some hk)
    cases hold : lookupTerm st.postings t with
    | none =>
      rw [hold] at hl
      injection hl with hl
      subst hl
      refine ⟨by simp, by simp, ?_⟩
      intro p hp
      simp only [List.nil_append, List.mem_singleton] at hp
      subst hp
      exact ⟨hv1, hch⟩
    | some ps0 =>
      rw [hold] at hl
      have hred : (match Option.some ps0 with
          | Option.some ps => ps
          | Option.none => ([] : List Posting)) = ps0 := rfl
      rw [hred] at hl
      injection hl with hl
      subst hl
      obtain ⟨hne0, hlen0, hall0⟩ := hinv t ps0 hold
      refine ⟨by simp, ?_, ?_⟩
      · rw [List.length_append, List.length_singleton]
        omega
      · intro p hp
        rcases List.mem_append.mp hp with hp0 | hp1
        · exact hall0 p hp0
        · rw [List.mem_singleton] at hp1
          subst hp1
          exact ⟨hv1, hch⟩

theorem postInv_foldl (bound : Nat) (cs : List Chunk)
    (hidx : ∀ ch ∈ cs, ch.index < bound) :
    ∀ (st : BuildState) (n : Nat), PostInv st.postings n bound →
      PostInv (cs.foldl buildStep st).postings (n + cs.length) bound := by
  induction cs with
  | nil =>
    intro st n h
    simpa using h
  | cons c rest ih =>
    intro st n h
    rw [List.foldl_cons]
    have heq : n + (c :: rest).length = (n + 1) + rest.length := by
      rw [List.length_cons]
      omega
    rw [heq]
    exact ih (fun ch hch => hidx ch (List.mem_cons_of_mem _ hch)) (buildStep st c) (n + 1)
      (postInv_buildStep st c n bound (hidx c (List.mem_cons_self _ _)) h)

theorem postInv_buildIndex (h : ContentHash) (cs : List Chunk) (bound : Nat)
    (hidx : ∀ ch ∈ cs, ch.index < bound) :
    PostInv (buildIndex h cs).postings cs.length bound := by
  have hinit : PostInv (⟨[], [], [], 0⟩ : BuildState).postings 0 bound := by
    intro t ps hl
    exact absurd hl (by simp [lookupTerm])
  have hx := postInv_foldl bound cs hidx ⟨[], [], [], 0⟩ 0 hinit
  have hpost : (buildIndex h cs).postings =
      (cs.foldl buildStep ⟨[], [], [], 0⟩).postings := rfl
  rw [hpost]
  simpa using hx

theorem entryOK_buildIndex (h : ContentHash) (cs : List Chunk)
    (hidx : ∀ ch ∈ cs, ch.index < cs.length) :
    EntryOK (buildIndex h cs) := by
  have hcount : (buildIndex h cs).chunkCount = cs.length := rfl
  refine ⟨?_, ?_⟩
  · have havg : (buildIndex h cs).avgDocLength =
        if 0 < cs.length then
          ((cs.foldl buildStep ⟨[], [], [], 0⟩).totalLength : ℚ) / cs.length
        else 0 := rfl
    rw [havg]
    split
    · positivity
    · exact le_refl 0
  · intro t ps hl
    have hinv := postInv_buildIndex h cs cs.length hidx
    have hx := hinv t ps hl
    rw [hcount]
    exact hx

theorem buildIndex_append_lookup (h1 h2 : ContentHash) (cs : List Chunk) (c : Chunk)
    (t : List Char) (ht : t ∉ tokenizeText c.content) :
    lookupTerm (buildIndex h2 (cs ++ [c])).postings t =
      lookupTerm (buildIndex h1 cs).postings t := by
  have hpost2 : (buildIndex h2 (cs ++ [c])).postings =
      (buildStep (cs.foldl buildStep ⟨[], [], [], 0⟩) c).postings := by
    show ((cs ++ [c]).foldl buildStep ⟨[], [], [], 0⟩).postings = _
    rw [List.foldl_append]
    rfl
  have hpost1 : (buildIndex h1 cs).postings =
      (cs.foldl buildStep ⟨[], [], [], 0⟩).postings := rfl
  rw [hpost2, hpost1]
  have hnd := termFreqs_nodup_keys (tokenizeText c.content)
  have hstep : (buildStep (cs.foldl buildStep ⟨[], [], [], 0⟩) c).postings =
      (termFreqs (tokenizeText c.content)).foldl
        (fun ps tv => addPosting ps tv.1 ⟨c.index, tv.2⟩)
        (cs.foldl buildStep ⟨[], [], [], 0⟩).postings := rfl
  rw [hstep, lookupTerm_foldAdd _ _ _ _ hnd]
  have hnk : t ∉ (termFreqs (tokenizeText c.content)).map Prod.fst := by
    rw [termFreqs_mem_keys]
    exact ht
  rw [lookup_eq_none_of_not_mem_keys _ _ hnk]

/-- C5 (amended): adding one chunk whose terms are all disjoint from the
query's terms and rebuilding the index preserves the SET of ranked chunks
(each original chunk appears in the new ranking iff it appeared in the
original one, for any top-K bounds covering all chunks), and the new chunk
never enters the ranking.  The relative ORDER of the original chunks can
change, because the added chunk shifts the average document length (see
the counterexample). -/
theorem C5_disjoint_append_rank (lg : ℚ → ℚ)
    (hlog : ∀ x : ℚ, 1 < x → 0 < lg x)
    (cs : List Chunk) (hidx : ∀ ch ∈ cs, ch.index < cs.length)
    (c : Chunk) (hcidx : c.index = cs.length)
    (q : List Char) (hdisj : ∀ t ∈ tokenizeText c.content, t ∉ tokenizeText q)
    (h1 h2 : ContentHash) (K K2 : Nat)
    (hK : cs.length ≤ K) (hK2 : cs.length + 1 ≤ K2) :
    (∀ i, i < cs.length →
      (i ∈ (rank lg (buildIndex h1 cs) q K Option.none).map RankedChunk.index ↔
        i ∈ (rank lg (buildIndex h2 (cs ++ [c])) q K2 Option.none).map
          RankedChunk.index)) ∧
    cs.length ∉ (rank lg (buildIndex h2 (cs ++ [c])) q K2 Option.none).map
      RankedChunk.index := by
  have hc1 : (buildIndex h1 cs).chunkCount = cs.length := rfl
  have hc2 : (buildIndex h2 (cs ++ [c])).chunkCount = cs.length + 1 := by
    show (cs ++ [c]).length = cs.length + 1
    simp
  have hok1 : EntryOK (buildIndex h1 cs) := entryOK_buildIndex h1 cs hidx
  have hok2 : EntryOK (buildIndex h2 (cs ++ [c])) := by
    apply entryOK_buildIndex
    intro ch hch
    rw [List.length_append, List.length_singleton]
    rcases List.mem_append.mp hch with hm | hm
    · exact Nat.lt_succ_of_lt (hidx ch hm)
    · rw [List.mem_singleton] at hm
      subst hm
      rw [hcidx]
      exact Nat.lt_succ_self _
  have hqfs := termFreqs_val_ge1 (tokenizeText q)
  have hlook : ∀ tq ∈ termFreqs (tokenizeText q),
      lookupTerm (buildIndex h2 (cs ++ [c])).postings tq.1 =
        lookupTerm (buildIndex h1 cs).postings tq.1 := by
    intro tq htq
    apply buildIndex_append_lookup
    intro hc
    exact hdisj tq.1 hc (termFreqs_fst_mem htq)
  have hK1' : (buildIndex h1 cs).chunkCount ≤ K := by
    rw [hc1]
    exact hK
  have hK2' : (buildIndex h2 (cs ++ [c])).chunkCount ≤ K2 := by
    rw [hc2]
    exact hK2
  constructor
  · intro i hi
    rw [rank_mem_iff lg _ q K hK1' i, rank_mem_iff lg _ q K2 hK2' i]
    rw [hc1, hc2]
    rw [scores_pos_iff lg hlog _ hok1 _ hqfs i,
      scores_pos_iff lg hlog _ hok2 _ hqfs i]
    constructor
    · rintro ⟨hne, -, tq, htq, ps, hps, hp⟩
      refine ⟨?_, Nat.lt_succ_of_lt hi, tq, htq, ps, ?_, hp⟩
      · rintro (hemp | hzero)
        · exact hne (Or.inl hemp)
        · omega
      · rw [hlook tq htq]
        exact hps
    · rintro ⟨hne, -, tq, htq, ps, hps, hp⟩
      refine ⟨?_, hi, tq, htq, ps, ?_, hp⟩
      · rintro (hemp | hzero)
        · exact hne (Or.inl hemp)
        · omega
      · rw [← hlook tq htq]
        exact hps
  · rw [rank_mem_iff lg _ q K2 hK2' cs.length]
    rw [hc2]
    rw [scores_pos_iff lg hlog _ hok2 _ hqfs cs.length]
    rintro ⟨-, -, tq, htq, ps, hps, p, hpmem, hpi⟩
    rw [hlook tq htq] at hps
    have hinv := postInv_buildIndex h1 cs cs.length hidx
    have hdoc := (hinv tq.1 ps hps).2.2 p hpmem
    omega

theorem C5_disjoint_append_rank_witness :
    (∀ i, i < c5aChunks.length →
      (i ∈ (rank ratLogLin (buildIndex ⟨0, 0⟩ c5aChunks) "cat".toList 10
          Option.none).map RankedChunk.index ↔
        i ∈ (rank ratLogLin (buildIndex ⟨1, 1⟩ (c5aChunks ++ [c5aNew])) "cat".toList 10
          Option.none).map RankedChunk.index)) ∧
    c5aChunks.length ∉ (rank ratLogLin (buildIndex ⟨1, 1⟩ (c5aChunks ++ [c5aNew]))
      "cat".toList 10 Option.none).map RankedChunk.index :=
  C5_disjoint_append_rank ratLogLin
    (by
      intro x hx
      simp only [ratLogLin]
      linarith)
    c5aChunks (by decide) c5aNew (by decide) "cat".toList (by decide)
    ⟨0, 0⟩ ⟨1, 1⟩ 10 10 (by decide) (by decide)


/-- Appending the query-disjoint chunk REVERSES the rank order of the two
original chunks (the average document length rises from 3 to 12, which
changes the length normalisation), refuting the order-preservation claim. -/
theorem C5_counterexample :
    (rank ratLogLin c5Entry1 "cat".toList 10 Option.none).map RankedChunk.index
      = [0, 1] ∧
    (rank ratLogLin c5Entry2 "cat".toList 10 Option.none).map RankedChunk.index
      = [1, 0] := by
  have hqf : termFreqs (tokenizeText "cat".toList) = [(['c','a','t'], 1)] := by decide
  have hps1 : lookupTerm c5Entry1.postings ['c','a','t'] =
      Option.some [⟨0, 1⟩, ⟨1, 2⟩] := by decide
  have hcc1 : c5Entry1.chunkCount = 2 := by decide
  have htot1 : (List.foldl buildStep
      { postings := [], docLengths := [], chunkMetadata := [], totalLength := 0 }
      c5aChunks).totalLength = 6 := by decide
  have hlen1 : c5aChunks.length = 2 := by decide
  have havg1 : c5Entry1.avgDocLength = 3 := by
    show (buildIndex ⟨0, 0⟩ c5aChunks).avgDocLength = 3
    simp only [buildIndex, htot1, hlen1]
    norm_num
  have hdl10 : lookupNatD c5Entry1.docLengths 0 0 = 1 := by decide
  have hdl11 : lookupNatD c5Entry1.docLengths 1 0 = 5 := by decide
  have hb10 : bm25Term ratLogLin c5Entry1 1 2 ⟨0, 1⟩ = 2/7 := by
    simp only [bm25Term, hcc1, havg1, hdl10, K1, B, ratLogLin]
    norm_num
  have hb11 : bm25Term ratLogLin c5Entry1 1 2 ⟨1, 2⟩ = 4/17 := by
    simp only [bm25Term, hcc1, havg1, hdl11, K1, B, ratLogLin]
    norm_num
  have hs10 : rankScores ratLogLin c5Entry1 (termFreqs (tokenizeText "cat".toList)) 0
      = 2/7 := by
    rw [hqf]
    simp only [rankScores, List.foldl]
    rw [hps1]
    simp only [List.isEmpty, List.foldl]
    norm_num
    rw [hb10]
  have hs11 : rankScores ratLogLin c5Entry1 (termFreqs (tokenizeText "cat".toList)) 1
      = 4/17 := by
    rw [hqf]
    simp only [rankScores, List.foldl]
    rw [hps1]
    simp only [List.isEmpty, List.foldl]
    norm_num
    rw [hb11]
  have h10pos : (0:ℚ) < 2/7 := by norm_num
  have h11pos : (0:ℚ) < 4/17 := by norm_num
  have hres1 : rank ratLogLin c5Entry1 "cat".toList 10 Option.none =
      [⟨0, 2/7⟩, ⟨1, 4/17⟩] := by
    simp only [rank]
    rw [if_neg (by decide)]
    simp only [hcc1]
    rw [show List.range 2 = [0, 1] from rfl]
    simp only [List.filterMap, hs10, hs11]
    rw [if_neg (not_le.mpr h10pos)]
    rw [if_neg (not_le.mpr h11pos)]
    simp only [List.insertionSort, List.orderedInsert]
    rw [if_pos (show scoreGE ⟨0, 2/7⟩ ⟨1, 4/17⟩ by
      simp only [scoreGE]
      norm_num)]
    rfl
  have hps2 : lookupTerm c5Entry2.postings ['c','a','t'] =
      Option.some [⟨0, 1⟩, ⟨1, 2⟩] := by decide
  have hcc2 : c5Entry2.chunkCount = 3 := by decide
  have htot2 : (List.foldl buildStep
      { postings := [], docLengths := [], chunkMetadata := [], totalLength := 0 }
      (c5aChunks ++ [c5aNew])).totalLength = 36 := by decide
  have hlen2 : (c5aChunks ++ [c5aNew]).length = 3 := by decide
  have havg2 : c5Entry2.avgDocLength = 12 := by
    show (buildIndex ⟨0, 0⟩ (c5aChunks ++ [c5aNew])).avgDocLength = 12
    simp only [buildIndex, htot2, hlen2]
    norm_num
  have hdl20 : lookupNatD c5Entry2.docLengths 0 0 = 1 := by decide
  have hdl21 : lookupNatD c5Entry2.docLengths 1 0 = 5 := by decide
  have hb20 : bm25Term ratLogLin c5Entry2 1 2 ⟨0, 1⟩ = 48/47 := by
    simp only [bm25Term, hcc2, havg2, hdl20, K1, B, ratLogLin]
    norm_num
  have hb21 : bm25Term ratLogLin c5Entry2 1 2 ⟨1, 2⟩ = 96/91 := by
    simp only [bm25Term, hcc2, havg2, hdl21, K1, B, ratLogLin]
    norm_num
  have hs20 : rankScores ratLogLin c5Entry2 (termFreqs (tokenizeText "cat".toList)) 0
      = 48/47 := by
    rw [hqf]
    simp only [rankScores, List.foldl]
    rw [hps2]
    simp only [List.isEmpty, List.foldl]
    norm_num
    rw [hb20]
  have hs21 : rankScores ratLogLin c5Entry2 (termFreqs (tokenizeText "cat".toList)) 1
      = 96/91 := by
    rw [hqf]
    simp only [rankScores, List.foldl]
    rw [hps2]
    simp only [List.isEmpty, List.foldl]
    norm_num
    rw [hb21]
  have hs22 : rankScores ratLogLin c5Entry2 (termFreqs (tokenizeText "cat".toList)) 2
      = 0 := by
    rw [hqf]
    simp only [rankScores, List.foldl]
    rw [hps2]
    simp only [List.isEmpty, List.foldl]
    norm_num
  have h20pos : (0:ℚ) < 48/47 := by norm_num
  have h21pos : (0:ℚ) < 96/91 := by norm_num
  have hres2 : rank ratLogLin c5Entry2 "cat".toList 10 Option.none =
      [⟨1, 96/91⟩, ⟨0, 48/47⟩] := by
    simp only [rank]
    rw [if_neg (by decide)]
    simp only [hcc2]
    rw [show List.range 3 = [0, 1, 2] from rfl]
    simp only [List.filterMap, hs20, hs21, hs22]
    rw [if_neg (not_le.mpr h20pos)]
    rw [if_neg (not_le.mpr h21pos)]
    rw [if_pos (le_refl (0:ℚ))]
    simp only [List.insertionSort, List.orderedInsert]
    rw [if_neg (show ¬ scoreGE ⟨0, 48/47⟩ ⟨1, 96/91⟩ by
      simp only [scoreGE]
      norm_num)]
    rfl
  rw [hres1, hres2]
  constructor
  · rfl
  · rfl

theorem strideCount_lt {len s i : Nat} (hs : 1 ≤ s) (hi : i < strideCount len s) :
    i * s < len := by
  unfold strideCount at hi
  have h2 : (i + 1) * s ≤ len + s - 1 := (Nat.le_div_iff_mul_le hs).mp hi
  rw [Nat.succ_mul] at h2
  omega

theorem range'_cons (a n : Nat) : List.range' a (n + 1) = a :: List.range' (a + 1) n := rfl

theorem map_index_range {f : Nat → Chunk} (hf : ∀ i, (f i).index = i) (n : Nat) :
    ((List.range n).map f).map Chunk.index = List.range (((List.range n).map f).length) := by
  rw [List.map_map, List.length_map, List.length_range]
  calc (List.range n).map (Chunk.index ∘ f)
      = (List.range n).map (fun i => i) := List.map_congr_left (fun i _ => hf i)
    _ = List.range n := List.map_id' _

theorem decomposeBySize_ok {content : List Char} {cs ov : Int} {chunks : List Chunk}
    (hcs : 0 ≤ cs) (h : decomposeBySize content cs ov = Except.ok chunks) :
    (∀ c ∈ chunks, ChunkBounds content.length c) ∧
      chunks.map Chunk.index = List.range chunks.length := by
  unfold decomposeBySize at h
  by_cases hstep : cs - ov ≤ 0
  · rw [if_pos hstep] at h
    exact absurd h (by simp)
  · rw [if_neg hstep] at h
    simp only [Except.ok.injEq] at h
    subst h
    push_neg at hstep
    constructor
    · intro c hc
      obtain ⟨i, hi, rfl⟩ := List.mem_map.mp hc
      rw [List.mem_range] at hi
      have hi2 : i < strideCount content.length (cs - ov).toNat :=
        lt_of_lt_of_le hi (min_le_left _ _)
      have hs1 : 1 ≤ (cs - ov).toNat := by omega
      have hmul := strideCount_lt hs1 hi2
      have hstepInt : (((cs - ov).toNat : Nat) : Int) = cs - ov :=
        Int.toNat_of_nonneg (by omega)
      have hoff : (0:Int) ≤ (i : Int) * (cs - ov) :=
        mul_nonneg (by positivity) (by omega)
      have hofflt : (i : Int) * (cs - ov) < (content.length : Int) := by
        have hx : ((i * (cs - ov).toNat : Nat) : Int) < (content.length : Int) := by
          exact_mod_cast hmul
        rw [Nat.cast_mul, hstepInt] at hx
        exact hx
      refine ⟨hoff, ?_, ?_⟩
      · show (i : Int) * (cs - ov) ≤ min ((i : Int) * (cs - ov) + cs) (content.length : Int)
        apply le_min
        · linarith
        · exact le_of_lt hofflt
      · show min ((i : Int) * (cs - ov) + cs) (content.length : Int) ≤ (content.length : Int)
        exact min_le_right _ _
    · exact map_index_range (fun i => rfl) _

theorem splitNLGo_sum : ∀ (l cur : List Char),
    ((splitNLGo cur l).map List.length).sum + (splitNLGo cur l).length
      = cur.length + l.length + 1
  | [], cur => by simp [splitNLGo]
  | c :: t, cur => by
    rw [splitNLGo]
    by_cases hc : c = '\n'
    · rw [if_pos hc]
      have ih := splitNLGo_sum t []
      simp only [List.map_cons, List.sum_cons, List.length_cons,
        List.length_reverse, List.length_nil] at ih ⊢
      omega
    · rw [if_neg hc]
      have ih := splitNLGo_sum t (c :: cur)
      simp only [List.length_cons] at ih ⊢
      omega

theorem lineOffsetsGo_length : ∀ (lines : List (List Char)) (acc : Nat),
    (lineOffsetsGo acc lines).length = lines.length
  | [], _ => rfl
  | [_], _ => rfl
  | l :: l2 :: ls, acc => by
    have heq : lineOffsetsGo acc (l :: l2 :: ls) =
        acc :: lineOffsetsGo (acc + l.length + 1) (l2 :: ls) := rfl
    rw [heq, List.length_cons, List.length_cons,
      lineOffsetsGo_length (l2 :: ls) (acc + l.length + 1), List.length_cons]

theorem lineOffsetsGo_le : ∀ (lines : List (List Char)) (acc k : Nat),
    k < lines.length →
      acc ≤ (lineOffsetsGo acc lines).getD k 0 ∧
      (lineOffsetsGo acc lines).getD k 0 + 1 ≤
        acc + (lines.map List.length).sum + lines.length
  | [], acc, k, hk => absurd hk (by simp)
  | [l], acc, k, hk => by
    have hk0 : k = 0 := by
      simp only [List.length_singleton] at hk
      omega
    subst hk0
    simp [lineOffsetsGo]
  | l :: l2 :: ls, acc, k, hk => by
    have heq : lineOffsetsGo acc (l :: l2 :: ls) =
        acc :: lineOffsetsGo (acc + l.length + 1) (l2 :: ls) := rfl
    rw [heq]
    cases k with
    | zero =>
      simp only [List.getD_cons_zero, List.map_cons, List.sum_cons, List.length_cons]
      omega
    | succ k' =>
      have hk' : k' < (l2 :: ls).length := by
        simp only [List.length_cons] at hk ⊢
        omega
      have ih := lineOffsetsGo_le (l2 :: ls) (acc + l.length + 1) k' hk'
      simp only [List.getD_cons_succ]
      simp only [List.map_cons, List.sum_cons, List.length_cons] at ih ⊢
      omega

theorem lineOffsetsGo_mono : ∀ (lines : List (List Char)) (acc j k : Nat),
    j ≤ k → k < lines.length →
      (lineOffsetsGo acc lines).getD j 0 ≤ (lineOffsetsGo acc lines).getD k 0
  | [], _, _, k, _, hk => absurd hk (by simp)
  | [l], acc, j, k, hjk, hk => by
    have hk0 : k = 0 := by
      simp only [List.length_singleton] at hk
      omega
    have hj0 : j = 0 := by omega
    subst hk0
    subst hj0
    exact le_refl _
  | l :: l2 :: ls, acc, j, k, hjk, hk => by
    have heq : lineOffsetsGo acc (l :: l2 :: ls) =
        acc :: lineOffsetsGo (acc + l.length + 1) (l2 :: ls) := rfl
    rw [heq]
    cases k with
    | zero =>
      have hj0 : j = 0 := by omega
      subst hj0
      exact le_refl _
    | succ k' =>
      have hk' : k' < (l2 :: ls).length := by
        simp only [List.length_cons] at hk ⊢
        omega
      cases j with
      | zero =>
        simp only [List.getD_cons_zero, List.getD_cons_succ]
        have hx := (lineOffsetsGo_le (l2 :: ls) (acc + l.length + 1) k' hk').1
        omega
      | succ j' =>
        simp only [List.getD_cons_succ]
        exact lineOffsetsGo_mono (l2 :: ls) (acc + l.length + 1) j' k' (by omega) hk'

theorem linesChunkAt_bounds (content : List Char) (lpc : Int) (advance : Nat)
    (hlpc : 1 ≤ lpc) (i : Nat)
    (hi : i * advance < (splitNL content).length) :
    ChunkBounds content.length
      (linesChunkAt content (splitNL content) (lineOffsets (splitNL content)) lpc
        advance i) := by
  have hsum : ((splitNL content).map List.length).sum + (splitNL content).length
      = content.length + 1 := by
    have := splitNLGo_sum content []
    simpa [splitNL] using this
  have hoffs : lineOffsets (splitNL content) = lineOffsetsGo 0 (splitNL content) := rfl
  have hlen : (lineOffsets (splitNL content)).length = (splitNL content).length := by
    rw [hoffs]
    exact lineOffsetsGo_length _ _
  have hstart := lineOffsetsGo_le (splitNL content) 0 (i * advance) hi
  unfold linesChunkAt ChunkBounds
  dsimp only
  rw [hoffs]
  by_cases hbr : ((splitNL content).length : Int) ≤ ((i * advance : Nat) : Int) + lpc
  · rw [if_pos hbr]
    refine ⟨by positivity, ?_, le_refl _⟩
    have := hstart.2
    omega
  · rw [if_neg hbr]
    push_neg at hbr
    have hmin : min (((i * advance : Nat) : Int) + lpc) (((splitNL content).length : Nat) : Int)
        = ((i * advance : Nat) : Int) + lpc := min_eq_left (le_of_lt hbr)
    rw [hmin]
    have heli0 : (0:Int) ≤ ((i * advance : Nat) : Int) + lpc := by positivity
    have helilt : (((i * advance : Nat) : Int) + lpc).toNat <
        (lineOffsetsGo 0 (splitNL content)).length := by
      rw [lineOffsetsGo_length]
      omega
    unfold jsArrayGet
    rw [if_pos ⟨heli0, helilt⟩]
    have hend := lineOffsetsGo_le (splitNL content) 0
      ((((i * advance : Nat) : Int) + lpc).toNat)
      (by
        rw [lineOffsetsGo_length] at helilt
        exact helilt)
    have hmono := lineOffsetsGo_mono (splitNL content) 0 (i * advance)
      ((((i * advance : Nat) : Int) + lpc).toNat)
      (by omega)
      (by
        rw [lineOffsetsGo_length] at helilt
        exact helilt)
    refine ⟨by positivity, ?_, ?_⟩
    · simp only [List.getD_eq_getElem?_getD] at hmono ⊢
      omega
    · have := hend.2
      omega

theorem decomposeByLines_ok {content : List Char} {lpc ol : Int}
    (hlpc : 1 ≤ lpc) :
    (∀ c ∈ decomposeByLines content lpc ol, ChunkBounds content.length c) ∧
      (decomposeByLines content lpc ol).map Chunk.index =
        List.range (decomposeByLines content lpc ol).length := by
  unfold decomposeByLines
  dsimp only
  constructor
  · intro c hc
    obtain ⟨i, hi, rfl⟩ := List.mem_map.mp hc
    rw [List.mem_range] at hi
    have hadv1 : 1 ≤ (max 1 (lpc - ol)).toNat := by omega
    have hi2 : i < strideCount (splitNL content).length (max 1 (lpc - ol)).toNat :=
      lt_of_lt_of_le hi (min_le_left _ _)
    exact linesChunkAt_bounds content lpc _ hlpc i (strideCount_lt hadv1 hi2)
  · exact map_index_range (fun i => rfl) _

theorem indexOfSuffix_occ : ∀ {l pat : List Char} {i : Nat},
    indexOfSuffix pat l = Option.some i → (l.drop i).take pat.length = pat
  | [], pat, i, h => by
    rw [indexOfSuffix] at h
    by_cases hp : pat.isEmpty
    · rw [if_pos hp] at h
      injection h with h
      subst h
      simp [List.isEmpty_iff.mp hp]
    · rw [if_neg hp] at h
      cases h
  | c :: t, pat, i, h => by
    rw [indexOfSuffix] at h
    by_cases hm : (c :: t).take pat.length = pat
    · rw [if_pos hm] at h
      injection h with h
      subst h
      simpa using hm
    · rw [if_neg hm, Option.map_eq_some'] at h
      obtain ⟨j, hj, rfl⟩ := h
      have hx := indexOfSuffix_occ hj
      simpa using hx

theorem indexOfSuffix_le_length : ∀ {l pat : List Char} {i : Nat},
    indexOfSuffix pat l = Option.some i → i ≤ l.length
  | [], pat, i, h => by
    rw [indexOfSuffix] at h
    by_cases hp : pat.isEmpty
    · rw [if_pos hp] at h
      injection h with h
      omega
    · rw [if_neg hp] at h
      cases h
  | c :: t, pat, i, h => by
    rw [indexOfSuffix] at h
    by_cases hm : (c :: t).take pat.length = pat
    · rw [if_pos hm] at h
      injection h with h
      omega
    · rw [if_neg hm, Option.map_eq_some'] at h
      obtain ⟨j, hj, rfl⟩ := h
      have hx := indexOfSuffix_le_length hj
      simp only [List.length_cons]
      omega

theorem indexOfSuffix_exists : ∀ (l pat : List Char) (p : Nat),
    (l.drop p).take pat.length = pat →
    ∃ i, indexOfSuffix pat l = Option.some i ∧ i ≤ p
  | l, pat, 0, hocc => by
    cases l with
    | nil =>
      have hpe : pat.isEmpty = true := by
        simp only [List.drop_nil, List.take_nil] at hocc
        simp [← hocc]
      refine ⟨0, ?_, le_refl 0⟩
      rw [indexOfSuffix, if_pos hpe]
    | cons c t =>
      rw [List.drop_zero] at hocc
      refine ⟨0, ?_, le_refl 0⟩
      rw [indexOfSuffix, if_pos hocc]
  | l, pat, p + 1, hocc => by
    cases l with
    | nil =>
      have hpe : pat.isEmpty = true := by
        simp only [List.drop_nil, List.take_nil] at hocc
        simp [← hocc]
      refine ⟨0, ?_, by omega⟩
      rw [indexOfSuffix, if_pos hpe]
    | cons c t =>
      have hocc' : (t.drop p).take pat.length = pat := by simpa using hocc
      obtain ⟨i, hi, hip⟩ := indexOfSuffix_exists t pat p hocc'
      rw [indexOfSuffix]
      by_cases hm : (c :: t).take pat.length = pat
      · rw [if_pos hm]
        exact ⟨0, rfl, by omega⟩
      · rw [if_neg hm]
        refine ⟨i + 1, ?_, by omega⟩
        rw [hi]
        rfl

theorem occ_add_le {l pat : List Char} {i : Nat}
    (h : (l.drop i).take pat.length = pat) (hi : i ≤ l.length) :
    i + pat.length ≤ l.length := by
  have hl := congrArg List.length h
  rw [List.length_take, List.length_drop] at hl
  omega

theorem occursFrom_mono {content : List Char} {parts : List (List Char)} {o o' : Nat}
    (h : OccursFrom content parts o) (hle : o' ≤ o) : OccursFrom content parts o' := by
  cases h with
  | nil => exact OccursFrom.nil o'
  | cons part rest off p hp hocc hrest =>
    exact OccursFrom.cons part rest o' p (by omega) hocc hrest

theorem scanPartsGo_bounds (content : List Char) (wp : Bool) :
    ∀ (parts : List (List Char)) (offset index : Nat),
      OccursFrom content parts offset →
      ∀ c ∈ scanPartsGo content wp parts offset index, ChunkBounds content.length c
  | [], offset, index, _, c, hc => absurd hc (by simp [scanPartsGo])
  | part :: rest, offset, index, hocc, c, hc => by
    simp only [scanPartsGo] at hc
    cases hocc with
    | cons _ _ _ p hp hpo hrest =>
    by_cases htr : (jsTrim part).isEmpty
    · rw [if_pos htr] at hc
      exact scanPartsGo_bounds content wp rest offset index
        (occursFrom_mono hrest (by omega)) c hc
    · rw [if_neg htr] at hc
      have hpart_ne : part ≠ [] := by
        intro hp0
        rw [hp0] at htr
        exact htr (by simp [jsTrim])
      have hple : p ≤ content.length := by
        by_contra hgt
        push_neg at hgt
        rw [List.drop_eq_nil_of_le (le_of_lt hgt)] at hpo
        simp only [List.take_nil] at hpo
        exact hpart_ne hpo.symm
      have hocc' : ((content.drop offset).drop (p - offset)).take part.length = part := by
        rw [List.drop_drop, show offset + (p - offset) = p from by omega]
        exact hpo
      obtain ⟨i, hi, hip⟩ := indexOfSuffix_exists (content.drop offset) part
        (p - offset) hocc'
      have hiF : indexOfFrom content part offset = Option.some (i + offset) := by
        unfold indexOfFrom
        rw [hi]
        rfl
      have hile := indexOfSuffix_le_length hi
      have hiocc := indexOfSuffix_occ hi
      have hbound : (i + offset) + part.length ≤ content.length := by
        have hx := occ_add_le hiocc hile
        rw [List.length_drop] at hx hile
        omega
      simp only [hiF] at hc
      by_cases hcap : MAX_CHUNKS < index + 1
      · rw [if_pos hcap] at hc
        simp only [List.mem_singleton] at hc
        subst hc
        refine ⟨by positivity, ?_, ?_⟩
        · show ((i + offset : Nat) : Int) ≤ ((i + offset + part.length : Nat) : Int)
          exact_mod_cast by omega
        · show ((i + offset + part.length : Nat) : Int) ≤ (content.length : Int)
          exact_mod_cast hbound
      · rw [if_neg hcap] at hc
        rcases List.mem_cons.mp hc with rfl | hc2
        · refine ⟨by positivity, ?_, ?_⟩
          · show ((i + offset : Nat) : Int) ≤ ((i + offset + part.length : Nat) : Int)
            exact_mod_cast by omega
          · show ((i + offset + part.length : Nat) : Int) ≤ (content.length : Int)
            exact_mod_cast hbound
        · exact scanPartsGo_bounds content wp rest (i + offset + part.length) (index + 1)
            (occursFrom_mono hrest (by omega)) c hc2

theorem scanPartsGo_indices (content : List Char) (wp : Bool) :
    ∀ (parts : List (List Char)) (offset index : Nat),
      (scanPartsGo content wp parts offset index).map Chunk.index =
        List.range' index (scanPartsGo content wp parts offset index).length
  | [], offset, index => by simp [scanPartsGo]
  | part :: rest, offset, index => by
    simp only [scanPartsGo]
    by_cases htr : (jsTrim part).isEmpty
    · rw [if_pos htr]
      exact scanPartsGo_indices content wp rest offset index
    · rw [if_neg htr]
      by_cases hcap : MAX_CHUNKS < index + 1
      · rw [if_pos hcap]
        rfl
      · rw [if_neg hcap]
        simp only [List.map_cons, List.length_cons]
        rw [scanPartsGo_indices content wp rest _ (index + 1), range'_cons]

theorem dropWhile_eq_drop_takeWhile (p : Char → Bool) :
    ∀ l : List Char, l.dropWhile p = l.drop (l.takeWhile p).length
  | [] => rfl
  | c :: t => by
    rw [List.dropWhile_cons, List.takeWhile_cons]
    by_cases hp : p c
    · simp only [hp, if_true, List.length_cons, List.drop_succ_cons]
      exact dropWhile_eq_drop_takeWhile p t
    · simp [hp]

theorem splitBlank_occurs (content : List Char) :
    ∀ (l : List Char) (off : Nat), content.drop off = l →
      OccursFrom content (splitBlank l) off
  | l, off, hl => by
    rw [splitBlank]
    split
    · rename_i hfb
      refine OccursFrom.cons l [] off off (le_refl _) ?_ (OccursFrom.nil _)
      rw [hl]
      exact List.take_length l
    · rename_i i hfb
      obtain ⟨t, ht⟩ := findBlankSep_spec hfb
      have hil : i + 2 ≤ l.length := by
        have hx := congrArg List.length ht
        rw [List.length_drop] at hx
        simp only [List.length_cons] at hx
        omega
      have htl : (l.take i).length = i := by
        rw [List.length_take]
        omega
      refine OccursFrom.cons (l.take i) _ off off (le_refl _) ?_ ?_
      · rw [htl, hl]
      · rw [htl]
        have hw : (l.drop i).dropWhile (fun c => c = '\n') =
            (l.drop i).drop (((l.drop i).takeWhile (fun c => c = '\n')).length) :=
          dropWhile_eq_drop_takeWhile _ _
        have hrec := splitBlank_occurs content
          ((l.drop i).dropWhile (fun c => c = '\n'))
          (off + i + ((l.drop i).takeWhile (fun c => c = '\n')).length)
          (by
            rw [hw, ← hl, List.drop_drop, List.drop_drop])
        exact occursFrom_mono hrec (by omega)
termination_by l _ _ => l.length
decreasing_by exact findBlankSep_drop_lt (by assumption)

theorem decomposeByParagraphs_ok (content : List Char) :
    (∀ c ∈ decomposeByParagraphs content, ChunkBounds content.length c) ∧
      (decomposeByParagraphs content).map Chunk.index =
        List.range (decomposeByParagraphs content).length := by
  unfold decomposeByParagraphs
  have hocc := splitBlank_occurs content content 0 (by simp)
  constructor
  · exact scanPartsGo_bounds content true (splitBlank content) 0 0 hocc
  · rw [scanPartsGo_indices]
    rw [List.range_eq_range']

theorem decomposeByRegex_ok {compileOk : List Char → Bool}
    {splitEngine : List Char → List Char → List (List Char)}
    {content pattern : List Char} {chunks : List Chunk}
    (hsplit : OccursFrom content (splitEngine pattern content) 0)
    (h : decomposeByRegex compileOk splitEngine content pattern = Except.ok chunks) :
    (∀ c ∈ chunks, ChunkBounds content.length c) ∧
      chunks.map Chunk.index = List.range chunks.length := by
  unfold decomposeByRegex at h
  by_cases hv : (validateRegexPattern compileOk pattern).valid
  · rw [if_pos hv] at h
    simp only [Except.ok.injEq] at h
    subst h
    constructor
    · exact scanPartsGo_bounds content false _ 0 0 hsplit
    · rw [scanPartsGo_indices, List.range_eq_range']
  · rw [if_neg hv] at h
    exact absurd h (by simp)

theorem stsOK_mono : ∀ {ms : List (Nat × Nat × List Char)} {lo lo' hi : Nat},
    StsOK ms lo hi → lo' ≤ lo → StsOK ms lo' hi
  | [], _, _, _, _, _ => trivial
  | (st, lvl, title) :: rest, lo, lo', hi, h, hle =>
    ⟨le_trans hle h.1, h.2.1, h.2.2⟩

theorem findHeaderGo_st :
    ∀ {l : List Char} {pos : Nat} {b : Bool} {st en lvl : Nat} {title : List Char},
      findHeaderGo l pos b = Option.some (st, en, lvl, title) → pos ≤ st ∧ st < en
  | [], pos, b, st, en, lvl, title, h => by simp [findHeaderGo] at h
  | c :: t, pos, b, st, en, lvl, title, h => by
    rw [findHeaderGo] at h
    by_cases hb : b
    · simp only [hb, if_true] at h
      cases hm : headerMatchAt (c :: t) with
      | some v =>
        obtain ⟨mlen, lvl2, title2⟩ := v
        rw [hm] at h
        simp only [Option.some.injEq, Prod.mk.injEq] at h
        have hmb := headerMatchAt_bounds hm
        omega
      | none =>
        rw [hm] at h
        have hx := findHeaderGo_st h
        omega
    · simp only [hb, if_false] at h
      have hx := findHeaderGo_st h
      omega

theorem sectionMatchesGo_sts : ∀ (n : Nat) (l : List Char), l.length ≤ n →
    ∀ (pos : Nat) (b : Bool), StsOK (sectionMatchesGo l pos b) pos (pos + l.length) := by
  intro n
  induction n with
  | zero =>
    intro l hl pos b
    have hl0 : l = [] := List.length_eq_zero.mp (by omega)
    subst hl0
    rw [sectionMatchesGo]
    split
    · trivial
    · rename_i st en lvl title hfh
      exact absurd hfh (by simp [findHeaderGo])
  | succ n ih =>
    intro l hl pos b
    rw [sectionMatchesGo]
    split
    · trivial
    · rename_i st en lvl title hfh
      have hst := findHeaderGo_st hfh
      have hlt := findHeaderGo_lt hfh
      refine ⟨hst.1, by omega, ?_⟩
      have hrec := ih (l.drop (en - pos)) (by rw [List.length_drop]; omega) en false
      have heq : en + (l.drop (en - pos)).length = pos + l.length := by
        rw [List.length_drop]
        omega
      rw [heq] at hrec
      exact stsOK_mono hrec (by omega)

theorem sectionMatches_sts (content : List Char) :
    StsOK (sectionMatches content) 0 content.length := by
  have hx := sectionMatchesGo_sts content.length content (le_refl _) 0 true
  simpa [sectionMatches] using hx

theorem sectionChunksGo_bounds (content : List Char) :
    ∀ (ms : List (Nat × Nat × List Char)) (index lo : Nat),
      StsOK ms lo content.length →
      ∀ c ∈ sectionChunksGo content ms index, ChunkBounds content.length c
  | [], index, lo, hok, c, hc => absurd hc (by simp [sectionChunksGo])
  | (st, lvl, title) :: rest, index, lo, hok, c, hc => by
    obtain ⟨hlo, hst, hrest⟩ := hok
    simp only [sectionChunksGo] at hc
    cases rest with
    | nil =>
      have hcc : c =
          { index := index,
            content := jsTrim ((content.take content.length).drop st),
            startOffset := (st : Int),
            endOffset := (content.length : Int),
            metadata := ChunkMeta.section_ lvl title } := by
        by_cases hcap : MAX_CHUNKS < index + 1
        · rw [if_pos hcap] at hc
          simpa using hc
        · rw [if_neg hcap] at hc
          rcases List.mem_cons.mp hc with rfl | hc2
          · rfl
          · exact absurd hc2 (by simp [sectionChunksGo])
      subst hcc
      refine ⟨by positivity, ?_, le_refl _⟩
      show (st : Int) ≤ (content.length : Int)
      exact_mod_cast le_of_lt hst
    | cons hd tl =>
      obtain ⟨st2, lvl2, title2⟩ := hd
      have hlo2 : st + 1 ≤ st2 := hrest.1
      have hst2 : st2 < content.length := hrest.2.1
      by_cases hcap : MAX_CHUNKS < index + 1
      · rw [if_pos hcap] at hc
        simp only [List.mem_singleton] at hc
        subst hc
        refine ⟨by positivity, ?_, ?_⟩
        · show (st : Int) ≤ (st2 : Int)
          exact_mod_cast by omega
        · show (st2 : Int) ≤ (content.length : Int)
          exact_mod_cast le_of_lt hst2
      · rw [if_neg hcap] at hc
        rcases List.mem_cons.mp hc with rfl | hc2
        · refine ⟨by positivity, ?_, ?_⟩
          · show (st : Int) ≤ (st2 : Int)
            exact_mod_cast by omega
          · show (st2 : Int) ≤ (content.length : Int)
            exact_mod_cast le_of_lt hst2
        · exact sectionChunksGo_bounds content ((st2, lvl2, title2) :: tl) (index + 1)
            (st + 1) hrest c hc2

theorem sectionChunksGo_indices (content : List Char) :
    ∀ (ms : List (Nat × Nat × List Char)) (index : Nat),
      (sectionChunksGo content ms index).map Chunk.index =
        List.range' index (sectionChunksGo content ms index).length
  | [], index => by simp [sectionChunksGo]
  | (st, lvl, title) :: rest, index => by
    simp only [sectionChunksGo]
    by_cases hcap : MAX_CHUNKS < index + 1
    · rw [if_pos hcap]
      rfl
    · rw [if_neg hcap]
      simp only [List.map_cons, List.length_cons]
      rw [sectionChunksGo_indices content rest (index + 1), range'_cons]

theorem decomposeBySections_ok (content : List Char) :
    (∀ c ∈ decomposeBySections content, ChunkBounds content.length c) ∧
      (decomposeBySections content).map Chunk.index =
        List.range (decomposeBySections content).length := by
  have hsts := sectionMatches_sts content
  unfold decomposeBySections
  cases hm : sectionMatches content with
  | nil =>
    constructor
    · intro c hc
      simp only [List.mem_singleton] at hc
      subst hc
      exact ⟨le_refl _, by positivity, le_refl _⟩
    · rfl
  | cons m restM =>
    obtain ⟨st0, lvl0, title0⟩ := m
    rw [hm] at hsts
    obtain ⟨-, hst0, hrest⟩ := hsts
    dsimp only
    by_cases hpre : 0 < st0 ∧ ¬ (jsTrim (content.take st0)).isEmpty = true
    · rw [if_pos hpre]
      constructor
      · intro c hc
        rcases List.mem_cons.mp hc with rfl | hc2
        · refine ⟨le_refl _, by positivity, ?_⟩
          show (st0 : Int) ≤ (content.length : Int)
          exact_mod_cast le_of_lt hst0
        · exact sectionChunksGo_bounds content ((st0, lvl0, title0) :: restM) 1 0
            ⟨Nat.zero_le _, hst0, hrest⟩ c hc2
      · simp only [List.map_cons, List.length_cons]
        rw [sectionChunksGo_indices, List.range_eq_range', range'_cons]
    · rw [if_neg hpre]
      constructor
      · exact sectionChunksGo_bounds content ((st0, lvl0, title0) :: restM) 0 0
          ⟨Nat.zero_le _, hst0, hrest⟩
      · rw [sectionChunksGo_indices, List.range_eq_range']

theorem sentencesGo_ok : ∀ (n : Nat) (l : List Char), l.length ≤ n →
    ∀ (pos index total : Nat), pos + l.length = total →
      (∀ c ∈ sentencesGo l pos index, ChunkBounds total c) ∧
      (sentencesGo l pos index).map Chunk.index =
        List.range' index (sentencesGo l pos index).length := by
  intro n
  induction n with
  | zero =>
    intro l hl pos index total ht
    have hl0 : l = [] := List.length_eq_zero.mp (by omega)
    subst hl0
    rw [sentencesGo]
    constructor
    · intro c hc
      simp [sentenceNextMatch] at hc
    · simp [sentenceNextMatch]
  | succ n ih =>
    intro l hl pos index total ht
    rw [sentencesGo]
    split
    · constructor
      · intro c hc
        exact absurd hc (by simp)
      · simp
    · rename_i s len hsm
      have hb := sentenceNextMatch_bounds hsm
      have hrec : ∀ idx : Nat,
          (∀ c ∈ sentencesGo (l.drop (s + len)) (pos + s + len) idx, ChunkBounds total c) ∧
          (sentencesGo (l.drop (s + len)) (pos + s + len) idx).map Chunk.index =
            List.range' idx (sentencesGo (l.drop (s + len)) (pos + s + len) idx).length :=
        fun idx => ih (l.drop (s + len)) (by rw [List.length_drop]; omega)
          (pos + s + len) idx total (by rw [List.length_drop]; omega)
      dsimp only
      by_cases htr : (jsTrim ((l.drop s).take len)).isEmpty = true
      · rw [if_pos htr]
        by_cases hcap : MAX_CHUNKS < index
        · rw [if_pos hcap]
          exact ⟨fun c hc => absurd hc (by simp), by simp⟩
        · rw [if_neg hcap]
          exact hrec index
      · rw [if_neg htr]
        by_cases hcap : MAX_CHUNKS < index + 1
        · rw [if_pos hcap]
          constructor
          · intro c hc
            simp only [List.mem_singleton] at hc
            subst hc
            refine ⟨by positivity, ?_, ?_⟩
            · show ((pos + s : Nat) : Int) ≤ ((pos + s + len : Nat) : Int)
              exact_mod_cast by omega
            · show ((pos + s + len : Nat) : Int) ≤ (total : Int)
              exact_mod_cast by omega
          · rfl
        · rw [if_neg hcap]
          obtain ⟨hrb, hri⟩ := hrec (index + 1)
          constructor
          · intro c hc
            rcases List.mem_cons.mp hc with rfl | hc2
            · refine ⟨by positivity, ?_, ?_⟩
              · show ((pos + s : Nat) : Int) ≤ ((pos + s + len : Nat) : Int)
                exact_mod_cast by omega
              · show ((pos + s + len : Nat) : Int) ≤ (total : Int)
                exact_mod_cast by omega
            · exact hrb c hc2
          · simp only [List.map_cons, List.length_cons]
            rw [hri, range'_cons]

theorem decomposeBySentences_ok (content : List Char) :
    (∀ c ∈ decomposeBySentences content, ChunkBounds content.length c) ∧
      (decomposeBySentences content).map Chunk.index =
        List.range (decomposeBySentences content).length := by
  unfold decomposeBySentences
  dsimp only
  obtain ⟨hbs, his⟩ := sentencesGo_ok content.length content (le_refl _) 0 0
    content.length (by omega)
  by_cases hf : (sentencesGo content 0 0).isEmpty = true ∧
      ¬ (jsTrim content).isEmpty = true
  · rw [if_pos hf]
    constructor
    · intro c hc
      simp only [List.mem_singleton] at hc
      subst hc
      exact ⟨le_refl _, by positivity, le_refl _⟩
    · rfl
  · rw [if_neg hf]
    exact ⟨hbs, by rw [his, List.range_eq_range']⟩

theorem tokenOffsetsList_length (single : Nat → Nat) :
    ∀ (ts : List Nat) (acc : Nat), (tokenOffsetsList single ts acc).length = ts.length + 1
  | [], _ => rfl
  | t :: ts, acc => by
    rw [tokenOffsetsList]
    simp only [List.length_cons, tokenOffsetsList_length single ts (acc + single t)]

theorem tokenOffsetsList_le (single : Nat → Nat) :
    ∀ (ts : List Nat) (acc k : Nat), k ≤ ts.length →
      acc ≤ (tokenOffsetsList single ts acc).getD k 0 ∧
      (tokenOffsetsList single ts acc).getD k 0 ≤ acc + (ts.map single).sum
  | [], acc, k, hk => by
    have hk0 : k = 0 := by simpa using hk
    subst hk0
    simp [tokenOffsetsList]
  | t :: ts, acc, k, hk => by
    rw [tokenOffsetsList]
    cases k with
    | zero => simp
    | succ k' =>
      have ih := tokenOffsetsList_le single ts (acc + single t) k' (by simpa using hk)
      simp only [List.getD_cons_succ, List.map_cons, List.sum_cons]
      omega

theorem tokenOffsetsList_mono (single : Nat → Nat) :
    ∀ (ts : List Nat) (acc j k : Nat), j ≤ k → k ≤ ts.length →
      (tokenOffsetsList single ts acc).getD j 0 ≤ (tokenOffsetsList single ts acc).getD k 0
  | [], acc, j, k, hjk, hk => by
    have hk0 : k = 0 := by simpa using hk
    have hj0 : j = 0 := by omega
    subst hk0
    subst hj0
    exact le_refl _
  | t :: ts, acc, j, k, hjk, hk => by
    rw [tokenOffsetsList]
    cases k with
    | zero =>
      have hj0 : j = 0 := by omega
      subst hj0
      exact le_refl _
    | succ k' =>
      have hk' : k' ≤ ts.length := by simpa using hk
      cases j with
      | zero =>
        simp only [List.getD_cons_zero, List.getD_cons_succ]
        have hx := (tokenOffsetsList_le single ts (acc + single t) k' hk').1
        omega
      | succ j' =>
        simp only [List.getD_cons_succ]
        exact tokenOffsetsList_mono single ts (acc + single t) j' k' (by omega) hk'

theorem decomposeByTokens_ok {encode : List Char → List Nat}
    {decode : List Nat → List Char} {content : List Char} {tpc ot : Int}
    {chunks : List Chunk}
    (htok : ((encode content).map (fun t => (decode [t]).length)).sum ≤ content.length)
    (h : decomposeByTokens encode decode content tpc ot = Except.ok chunks) :
    (∀ c ∈ chunks, ChunkBounds content.length c) ∧
      chunks.map Chunk.index = List.range chunks.length := by
  unfold decomposeByTokens at h
  by_cases h1 : tpc ≤ 0
  · rw [if_pos h1] at h
    exact absurd h (by simp)
  rw [if_neg h1] at h
  by_cases h2 : ot < 0
  · rw [if_pos h2] at h
    exact absurd h (by simp)
  rw [if_neg h2] at h
  dsimp only at h
  by_cases h3 : tpc - ot ≤ 0
  · rw [if_pos h3] at h
    exact absurd h (by simp)
  rw [if_neg h3] at h
  simp only [Except.ok.injEq] at h
  subst h
  push_neg at h1 h3
  constructor
  · intro c hc
    obtain ⟨i, hi, rfl⟩ := List.mem_map.mp hc
    rw [List.mem_range] at hi
    have hs1 : 1 ≤ (tpc - ot).toNat := by omega
    have hi2 : i < strideCount (encode content).length (tpc - ot).toNat :=
      lt_of_lt_of_le hi (min_le_left _ _)
    have hstart_lt : i * (tpc - ot).toNat < (encode content).length :=
      strideCount_lt hs1 hi2
    have hse : i * (tpc - ot).toNat ≤
        min (i * (tpc - ot).toNat + tpc.toNat) (encode content).length :=
      le_min (by omega) (le_of_lt hstart_lt)
    have he_le : min (i * (tpc - ot).toNat + tpc.toNat) (encode content).length ≤
        (encode content).length := min_le_right _ _
    have hmono := tokenOffsetsList_mono (fun t => (decode [t]).length) (encode content) 0
      (i * (tpc - ot).toNat)
      (min (i * (tpc - ot).toNat + tpc.toNat) (encode content).length) hse he_le
    have hle_e := tokenOffsetsList_le (fun t => (decode [t]).length) (encode content) 0
      (min (i * (tpc - ot).toNat + tpc.toNat) (encode content).length) he_le
    unfold ChunkBounds
    dsimp only
    refine ⟨by positivity, ?_, ?_⟩
    · exact_mod_cast hmono
    · exact_mod_cast le_trans hle_e.2 (by simpa using htok)
  · exact map_index_range (fun i => rfl) _

theorem chunkLimit_ok {cs chunks : List Chunk}
    (h : chunkLimit cs = Except.ok chunks) : chunks = cs := by
  unfold chunkLimit at h
  by_cases hcap : MAX_CHUNKS < cs.length
  · rw [if_pos hcap] at h
    exact absurd h (by simp)
  · rw [if_neg hcap] at h
    simp only [Except.ok.injEq] at h
    exact h.symm

/-- C2 (amended): for well-behaved external engines (split parts occur
in order in the content; single-token decode lengths sum to at most the
content length) and option bags whose effective `chunkSize` is
non-negative and whose effective `linesPerChunk` is positive, every
chunk produced by `decompose` satisfies
`0 ≤ startOffset ≤ endOffset ≤ length(text)` and the chunk indices are
exactly `0..N-1` in generation order.  Without the option-sign
conditions the offset invariant fails (see the counterexample: a
negative `chunkSize` with a more negative `overlap` passes the only
guard and produces `endOffset < 0`). -/
theorem C2_chunk_invariants (compileOk : List Char → Bool)
    (splitEngine : List Char → List Char → List (List Char))
    (encode : List Char → List Nat) (decode : List Nat → List Char)
    (content : List Char) (strategy : Strategy) (opts : Options)
    (hsplit : ∀ pat, OccursFrom content (splitEngine pat content) 0)
    (htok : ((encode content).map (fun t => (decode [t]).length)).sum ≤ content.length)
    (hcs : 0 ≤ jsOr opts.chunkSize DEFAULT_CHUNK_SIZE)
    (hlpc : 1 ≤ jsOr opts.linesPerChunk DEFAULT_LINES_PER_CHUNK)
    {chunks : List Chunk}
    (h : decomposePure compileOk splitEngine encode decode content strategy opts =
      Except.ok chunks) :
    (∀ c ∈ chunks, ChunkBounds content.length c) ∧
      chunks.map Chunk.index = List.range chunks.length := by
  unfold decomposePure at h
  cases strategy with
  | FIXED_SIZE =>
    dsimp only at h
    cases hraw : decomposeBySize content (jsOr opts.chunkSize DEFAULT_CHUNK_SIZE)
        (jsOr opts.overlap DEFAULT_OVERLAP) with
    | error e =>
      rw [hraw] at h
      exact absurd h (by simp)
    | ok cs0 =>
      rw [hraw] at h
      obtain rfl := chunkLimit_ok h
      exact decomposeBySize_ok hcs hraw
  | BY_LINES =>
    dsimp only at h
    obtain rfl := chunkLimit_ok h
    exact decomposeByLines_ok hlpc
  | BY_PARAGRAPHS =>
    dsimp only at h
    obtain rfl := chunkLimit_ok h
    exact decomposeByParagraphs_ok content
  | BY_SECTIONS =>
    dsimp only at h
    obtain rfl := chunkLimit_ok h
    exact decomposeBySections_ok content
  | BY_REGEX =>
    dsimp only at h
    cases hraw : decomposeByRegex compileOk splitEngine content
        (jsOrStr opts.pattern "\n\n+".toList) with
    | error e =>
      rw [hraw] at h
      exact absurd h (by simp)
    | ok cs0 =>
      rw [hraw] at h
      obtain rfl := chunkLimit_ok h
      exact decomposeByRegex_ok (hsplit _) hraw
  | BY_SENTENCES =>
    dsimp only at h
    obtain rfl := chunkLimit_ok h
    exact decomposeBySentences_ok content
  | BY_TOKENS =>
    dsimp only at h
    cases hraw : decomposeByTokens encode decode content
        (jsOr opts.tokensPerChunk DEFAULT_TOKENS_PER_CHUNK)
        (jsOr opts.tokenOverlap DEFAULT_TOKEN_OVERLAP) with
    | error e =>
      rw [hraw] at h
      exact absurd h (by simp)
    | ok cs0 =>
      rw [hraw] at h
      obtain rfl := chunkLimit_ok h
      exact decomposeByTokens_ok htok hraw

/-- A `fixed_size` decomposition with `chunkSize = -5`, `overlap = -10`
passes the only guard (`step = 5 > 0`) and emits a chunk with
`endOffset = -5 < 0 = startOffset`, violating the offset contract. -/
theorem C2_counterexample :
    ∃ cs, decomposePure (fun _ => true) (fun _ _ => []) charEncode charDecode
        "abc".toList Strategy.FIXED_SIZE
        { chunkSize := Option.some (-5), overlap := Option.some (-10) } =
          Except.ok cs ∧
      ∃ c ∈ cs, ¬ ChunkBounds "abc".toList.length c := by
  refine ⟨[{ index := 0, content := [], startOffset := 0, endOffset := -5 }],
    by rfl,
    { index := 0, content := [], startOffset := 0, endOffset := -5 },
    by decide, by decide⟩

theorem C2_chunk_invariants_witness :
    (∀ c ∈ ([⟨0, "ab".toList, 0, 2, ChunkMeta.none⟩] : List Chunk),
        ChunkBounds "ab".toList.length c) ∧
      ([⟨0, "ab".toList, 0, 2, ChunkMeta.none⟩] : List Chunk).map Chunk.index =
        List.range ([⟨0, "ab".toList, 0, 2, ChunkMeta.none⟩] : List Chunk).length :=
  C2_chunk_invariants (fun _ => true) (fun _ _ => []) (fun _ => []) (fun _ => [])
    "ab".toList Strategy.FIXED_SIZE {}
    (fun _ => OccursFrom.nil 0)
    (by decide) (by decide) (by decide)
    (by rfl)

end RLM
